import Mathlib

/-
Shallow embedding of the evaluation pipeline of lume-model
(src/lume_model/torch/model.py, class PyTorchModel).

Numeric values are modelled by the rationals: every claim under study is
structural (ordering, default filling, error propagation, state updates),
so the exact float arithmetic of torch never matters; the underlying
neural network and the botorch transformers are opaque functions on
tensors, exactly as the spec treats them.

Tensors are modelled as a shape (list of dimension sizes) together with
the row-major flattened data.  Python exceptions (IndexError, KeyError,
ValueError, RuntimeError) are modelled by Option: a raised exception
aborts evaluate, giving none.
-/

namespace LumeModel

/-- Row-major tensor over the rationals: a shape together with flattened data. -/
structure Tensor where
  shape : List Nat
  data : List Rat
deriving DecidableEq, Repr

namespace Tensor

/-- Number of axes, torch Tensor.dim(). -/
def dim (t : Tensor) : Nat := t.shape.length

/-- Well-formed tensor: the flattened data has exactly as many entries as the shape demands. -/
def wf (t : Tensor) : Prop := t.data.length = t.shape.prod

/-- Result of torch.tensor(x) for a scalar x: a rank-0 tensor. -/
def ofScalar (q : Rat) : Tensor := ⟨[], [q]⟩

/-- Tensor.squeeze(): drop every axis of size one; row-major data is unchanged. -/
def squeeze (t : Tensor) : Tensor := ⟨t.shape.filter (fun d => d ≠ 1), t.data⟩

/-- Tensor.item() on a tensor known to hold a single element (used only after a dim check). -/
def item (t : Tensor) : Rat := t.data.headD 0

/-- Tensor.item() in general: Python raises unless the tensor has exactly one element. -/
def itemOpt (t : Tensor) : Option Rat :=
  if t.data.length = 1 then t.data.head? else none

/-- Tensor.unsqueeze(0): prepend an axis of size one. -/
def unsqueeze0 (t : Tensor) : Tensor := ⟨1 :: t.shape, t.data⟩

/-- Tensor.reshape(s): same data, new shape; Python raises when the element counts disagree. -/
def reshape (t : Tensor) (s : List Nat) : Option Tensor :=
  if t.data.length = s.prod then some ⟨s, t.data⟩ else none

/-- Row-major multi-index of flat position p in the given shape. -/
def multiIndex : List Nat → Nat → List Nat
  | [], _ => []
  | _ :: ds, p => (p / ds.prod) :: multiIndex ds (p % ds.prod)

/-- Row-major flat position of a multi-index in the given shape. -/
def flatIndex : List Nat → List Nat → Nat
  | _, [] => 0
  | [], _ => 0
  | _ :: ds, i :: is => i * ds.prod + flatIndex ds is

/-- Broadcast compatibility of a source shape with a target shape, as used by
torch when assigning a tensor into a slice: right-aligned, every source axis
must equal the target axis or be of size one. -/
def broadcastsTo (vs s : List Nat) : Bool :=
  decide (vs.length ≤ s.length) &&
    (List.zip vs.reverse s.reverse).all (fun p => p.1 == p.2 || p.1 == 1)

/-- Element of a source tensor v broadcast across a target shape, read at a
multi-index of the target shape. -/
def broadcastGet (v : Tensor) (ix : List Nat) : Rat :=
  let tail := ix.drop (ix.length - v.shape.length)
  let adj := (List.zip tail v.shape).map (fun p => if p.2 = 1 then 0 else p.1)
  v.data.getD (flatIndex v.shape adj) 0

/-- Assignment t[..., idx] = v of torch, with broadcasting of v across the
slice.  Python raises on a rank-0 target (too many indices), an out-of-range
index, or a source shape that does not broadcast to the slice shape. -/
def setLastSlice (t : Tensor) (idx : Nat) (v : Tensor) : Option Tensor :=
  match t.shape.getLast? with
  | none => none
  | some n =>
    let s := t.shape.dropLast
    if broadcastsTo v.shape s ∧ idx < n then
      some ⟨t.shape, (List.range t.data.length).map (fun p =>
        if p % n = idx then broadcastGet v (multiIndex s (p / n)) else t.data.getD p 0)⟩
    else none

/-- Slice t[..., idx] of torch, keeping every leading axis.  Python raises on
a rank-0 tensor or an out-of-range index. -/
def lastSlice (t : Tensor) (idx : Nat) : Option Tensor :=
  match t.shape.getLast? with
  | none => none
  | some n =>
    if idx < n then
      some ⟨t.shape.dropLast,
        ((t.data.enum.filter (fun p => p.1 % n = idx)).map (fun p => p.2))⟩
    else none

/-- Tiling used by arrange: torch.tile(defaults, batch ++ [1]) replicates the
rank-1 default vector once per batch cell, shape batch ++ [len defaults]. -/
def tileDefaults (defaults : List Rat) (batch : List Nat) : Tensor :=
  ⟨batch ++ [defaults.length], (List.replicate batch.prod defaults).flatten⟩

end Tensor

/-- Input variable: named holder of a default and the last-known scalar value
(lume_model.variables.ScalarInputVariable, as consumed by the pipeline). -/
structure InputVariable where
  name : String
  default : Rat
  value : Rat
deriving DecidableEq, Repr

/-- Stored value of an output variable: a plain number or an array (the numpy
array written for image-typed outputs). -/
inductive VarValue where
  | num (q : Rat)
  | arr (t : Tensor)
deriving DecidableEq, Repr

/-- Output variable as consumed by the pipeline: name, mutable value, type tag,
image shape and the four optional bound cross-references with their bounds. -/
structure OutputVariable where
  name : String
  value : VarValue
  variable_type : String
  shape : List Nat := []
  x_min_variable : Option String := none
  x_max_variable : Option String := none
  y_min_variable : Option String := none
  y_max_variable : Option String := none
  x_min : Rat := 0
  x_max : Rat := 0
  y_min : Rat := 0
  y_max : Rat := 0
deriving DecidableEq, Repr

/-- Runtime input payload: the union type accepted by evaluate.  A Python int
and every other unrecognized type fall into the final else branch of
prepare_inputs; the int case is kept separate because one claim singles it out. -/
inductive InputValue where
  | variable (v : InputVariable)
  | float (q : Rat)
  | int (z : Int)
  | tensor (t : Tensor)
  | other (descr : String)
deriving DecidableEq, Repr

/-- Reversible transform: opaque forward and inverse numeric mappings
(botorch ReversibleInputTransform; calling the object applies forward,
untransform applies the inverse). -/
structure Transformer where
  forward : Tensor → Tensor
  untransform : Tensor → Tensor

/-- State of a PyTorchModel instance: the fields of the Python object that the
evaluation pipeline reads or writes.  Dictionaries keep insertion order, hence
lists; default_values is the tensor built in the constructor from the defaults
of input_variables, in dictionary order.  The loaded neural network is an
opaque function on tensors. -/
structure PyTorchModel where
  input_variables : List InputVariable
  default_values : List Rat
  output_variables : List OutputVariable
  input_transformers : List Transformer
  output_transformers : List Transformer
  output_format : String
  feature_order : Option (List String) := none
  output_order : Option (List String) := none
  model : Tensor → Tensor

namespace PyTorchModel

/-- Property features: the explicit feature order when configured, otherwise
the insertion order of the input variables. -/
def features (m : PyTorchModel) : List String :=
  match m.feature_order with
  | some order => order
  | none => m.input_variables.map (fun v => v.name)

/-- Property outputs: the explicit output order when configured, otherwise the
insertion order of the output variables. -/
def outputs (m : PyTorchModel) : List String :=
  match m.output_order with
  | some order => order
  | none => m.output_variables.map (fun v => v.name)

end PyTorchModel

/-- Dictionary lookup self.input_variables[name], none models KeyError. -/
def findVar (vars : List InputVariable) (name : String) : Option InputVariable :=
  vars.find? (fun v => v.name = name)

/-- Assignment self.input_variables[name].value = q; none models the KeyError
raised when the name is not a configured input variable. -/
def setVarValue (vars : List InputVariable) (name : String) (q : Rat) :
    Option (List InputVariable) :=
  if vars.any (fun v => v.name = name) then
    some (vars.map (fun v => if v.name = name then { v with value := q } else v))
  else none

/-- Stage one, method _prepare_inputs: dispatch on the runtime type of every
entry, building the name-to-tensor mapping and writing scalar values back into
the stored input variables.  The final else branch of the source constructs
TypeError(...) without raising it, so unrecognized entries are silently
dropped and no state is touched. -/
def prepare_inputs (vars : List InputVariable) :
    List (String × InputValue) → Option (List (String × Tensor) × List InputVariable)
  | [] => some ([], vars)
  | (name, payload) :: rest =>
    match payload with
    | .variable iv => do
        let vars1 ← setVarValue vars name iv.value
        let pr ← prepare_inputs vars1 rest
        return ((name, Tensor.ofScalar iv.value) :: pr.1, pr.2)
    | .float q => do
        let vars1 ← setVarValue vars name q
        let pr ← prepare_inputs vars1 rest
        return ((name, Tensor.ofScalar q) :: pr.1, pr.2)
    | .tensor t =>
        let t1 := t.squeeze
        if t1.dim = 0 then do
          let vars1 ← setVarValue vars name t1.item
          let pr ← prepare_inputs vars1 rest
          return ((name, t1) :: pr.1, pr.2)
        else do
          let pr ← prepare_inputs vars rest
          return ((name, t1) :: pr.1, pr.2)
    | .int _ => prepare_inputs vars rest
    | .other _ => prepare_inputs vars rest

/-- Position of a name in the feature order, list.index of Python; none models
the ValueError raised for a name outside the feature order. -/
def indexOf? : List String → String → Option Nat
  | [], _ => none
  | f :: rest, k => if f = k then some 0 else (indexOf? rest k).map (fun i => i + 1)

/-- Fold of the assignment loop of _arrange_inputs over the normalized mapping. -/
def arrangeFold (feats : List String) (vals : List (String × Tensor)) (init : Tensor) :
    Option Tensor :=
  vals.foldlM (fun acc kv => do
    let idx ← indexOf? feats kv.1
    Tensor.setLastSlice acc idx kv.2) init

/-- Stage two without the final width check: the first lines of
_arrange_inputs.  Indexing list(items())[0] raises IndexError on an empty
mapping; torch.tile of the default vector over the unsqueezed shape of the
first value produces the batched default tensor, and each supplied feature
overwrites its last-axis slice, none modelling the ValueError of list.index
for a name outside the feature order and the RuntimeError of an assignment
that does not broadcast. -/
def arrangeCore (m : PyTorchModel) (vals : List (String × Tensor)) : Option Tensor :=
  match vals with
  | [] => none
  | (_, v0) :: _ =>
      arrangeFold m.features vals (Tensor.tileDefaults m.default_values v0.shape)

/-- Stage two, method _arrange_inputs: the assignment loop followed by the
width check raising ValueError when the last axis disagrees with the number
of features. -/
def arrange_inputs (m : PyTorchModel) (vals : List (String × Tensor)) : Option Tensor := do
  let t ← arrangeCore m vals
  if t.shape.getLastD 0 = m.features.length then some t else none

/-- Stage three, method _transform_inputs: the for loop applying every input
transformer in list order. -/
def transform_inputs : List Transformer → Tensor → Tensor
  | [], x => x
  | t :: ts, x => transform_inputs ts (t.forward x)

/-- Stage five, method _transform_outputs: the for loop applying the inverse
mapping of every output transformer in list order. -/
def transform_outputs : List Transformer → Tensor → Tensor
  | [], x => x
  | t :: ts, x => transform_outputs ts (t.untransform x)

/-- Stage six, method _parse_outputs: promote rank 0 or 1 to a single
unbatched record, then slice the last axis at every output position and
squeeze. -/
def parse_outputs (outs : List String) (t0 : Tensor) : Option (List (String × Tensor)) :=
  let t := if t0.dim = 1 ∨ t0.dim = 0 then t0.unsqueeze0 else t0
  (outs.enum).mapM (fun p => do
    let s ← t.lastSlice p.1
    return (p.2, s.squeeze))

/-- Dictionary lookup predicted_output[name], none models KeyError. -/
def lookupPred (pred : List (String × Tensor)) (name : String) : Option Tensor :=
  (pred.find? (fun p => p.1 = name)).map (fun p => p.2)

/-- One of the four conditional bound updates of _update_image_limits: when the
cross-reference is set, look the referenced output up in the disassembled
mapping (KeyError when absent) and store its item (RuntimeError when not a
single element). -/
def applyLimit (pred : List (String × Tensor)) (name : String) (refv : Option String)
    (setf : OutputVariable → Rat → OutputVariable) (vars : List OutputVariable) :
    Option (List OutputVariable) :=
  match refv with
  | none => some vars
  | some r => do
      let t ← lookupPred pred r
      let q ← t.itemOpt
      return vars.map (fun w => if w.name = name then setf w q else w)

/-- Method _update_image_limits: the four bound cross-references, resolved in
order against the disassembled mapping. -/
def update_image_limits (pred : List (String × Tensor)) (v : OutputVariable)
    (vars : List OutputVariable) : Option (List OutputVariable) := do
  let vars1 ← applyLimit pred v.name v.x_min_variable (fun w q => { w with x_min := q }) vars
  let vars2 ← applyLimit pred v.name v.x_max_variable (fun w q => { w with x_max := q }) vars1
  let vars3 ← applyLimit pred v.name v.y_min_variable (fun w q => { w with y_min := q }) vars2
  applyLimit pred v.name v.y_max_variable (fun w q => { w with y_max := q }) vars3

/-- One pass of the write-back loop of _prepare_outputs for one output
variable: rank-0 results refresh the stored value, scalar-typed as the plain
number and image-typed as the reshaped array followed by the bound updates. -/
def prepare_outputs_step (pred : List (String × Tensor)) (vars : List OutputVariable)
    (v : OutputVariable) : Option (List OutputVariable) := do
  let t ← lookupPred pred v.name
  if t.dim = 0 then
    if v.variable_type = "scalar" then
      return vars.map (fun w =>
        if w.name = v.name then { w with value := VarValue.num t.item } else w)
    else if v.variable_type = "image" then do
      let r ← t.reshape v.shape
      let vars1 := vars.map (fun w =>
        if w.name = v.name then { w with value := VarValue.arr r } else w)
      update_image_limits pred v vars1
    else return vars
  else return vars

/-- Rendered result of evaluate, by configured output format. -/
inductive EvalResult where
  | tensors (d : List (String × Tensor))
  | variables (d : List OutputVariable)
  | raw (d : List (String × VarValue))
deriving DecidableEq, Repr

/-- Stage seven, method _prepare_outputs: write scalar results back into the
stored output variables, then render by output format: the disassembled
tensors, the variable objects themselves, or the plain stored values. -/
def prepare_outputs (vars0 : List OutputVariable) (fmt : String)
    (pred : List (String × Tensor)) : Option (EvalResult × List OutputVariable) := do
  let fv ← vars0.foldlM (fun acc v => prepare_outputs_step pred acc v) vars0
  if fmt = "tensor" then
    return (EvalResult.tensors pred, fv)
  else if fmt = "variable" then
    return (EvalResult.variables fv, fv)
  else
    return (EvalResult.raw (fv.map (fun v => (v.name, v.value))), fv)

/-- Method evaluate: the linear pipeline, threading the mutable variable state
and propagating every Python exception as none. -/
def evaluate (m : PyTorchModel) (input : List (String × InputValue)) :
    Option (EvalResult × PyTorchModel) := do
  let pr ← prepare_inputs m.input_variables input
  let arranged ← arrange_inputs m pr.1
  let feats := transform_inputs m.input_transformers arranged
  let rawOut := m.model feats
  let transformed := transform_outputs m.output_transformers rawOut
  let pred ← parse_outputs m.outputs transformed
  let ro ← prepare_outputs m.output_variables m.output_format pred
  return (ro.1, { m with input_variables := pr.2, output_variables := ro.2 })

/-- Rendered result of evaluate, without the mutated state. -/
def evalResult (m : PyTorchModel) (input : List (String × InputValue)) :
    Option EvalResult :=
  (evaluate m input).map (fun r => r.1)

/-- Arranged tensor produced from an input mapping, before the transforms. -/
def arrangeStage (m : PyTorchModel) (input : List (String × InputValue)) : Option Tensor := do
  let pr ← prepare_inputs m.input_variables input
  arrange_inputs m pr.1

/-- Tensor handed to the neural network by evaluate. -/
def modelInput (m : PyTorchModel) (input : List (String × InputValue)) : Option Tensor :=
  (arrangeStage m input).map (transform_inputs m.input_transformers)

/-- Tensor handed to the output disassembler by evaluate. -/
def disassemblerInput (m : PyTorchModel) (input : List (String × InputValue)) : Option Tensor :=
  (modelInput m input).map (fun f => transform_outputs m.output_transformers (m.model f))

/-- Construction invariant on the input side: default_values was built from
the defaults of the input variables, the feature order is the one derived
from the input variables, and names are unique. -/
def InputConforming (m : PyTorchModel) : Prop :=
  m.default_values = m.input_variables.map (fun v => v.default) ∧
    m.features = m.input_variables.map (fun v => v.name) ∧
    (m.input_variables.map (fun v => v.name)).Nodup

/-- Construction invariant on the output side: the output order is the one
derived from the output variables and names are unique. -/
def OutputConforming (m : PyTorchModel) : Prop :=
  m.outputs = m.output_variables.map (fun v => v.name) ∧
    (m.output_variables.map (fun v => v.name)).Nodup

/-- Reference arrangement of a scalar-supplied call: each feature position
takes the supplied value when present and the stored default otherwise. -/
def fillData (F : List String) (d : List Rat) (l : List (String × Rat)) : List Rat :=
  (F.zip d).map (fun p => (((l.find? (fun q => q.1 = p.1)).map (fun q => q.2)).getD p.2))

/-- Stored default of a named input variable. -/
def defaultOf (m : PyTorchModel) (f : String) : Rat :=
  ((m.input_variables.find? (fun v => v.name = f)).map (fun v => v.default)).getD 0

/-- Value supplied for a feature in a full-supply call: the value of the
partial mapping where present, the stored default otherwise. -/
def suppliedOr (m : PyTorchModel) (l : List (String × Rat)) (f : String) : Rat :=
  ((l.find? (fun p => p.1 = f)).map (fun p => p.2)).getD (defaultOf m f)

/-- Input mapping supplying every feature as a plain scalar: the values of the
partial mapping where present, the stored defaults elsewhere. -/
def fullSupply (m : PyTorchModel) (l : List (String × Rat)) : List (String × InputValue) :=
  m.features.map (fun f => (f, InputValue.float (suppliedOr m l f)))

/-- Entries of an input mapping that are not Python ints. -/
def dropIntEntries (input : List (String × InputValue)) : List (String × InputValue) :=
  input.filter (fun p => match p.2 with | InputValue.int _ => false | _ => true)

/-- Concrete input variable named a with default 10. -/
def exInputA : InputVariable := ⟨"a", 10, 10⟩

/-- Concrete input variable named b with default 20. -/
def exInputB : InputVariable := ⟨"b", 20, 20⟩

/-- Concrete scalar output variable named o1. -/
def exOut1 : OutputVariable :=
  { name := "o1", value := VarValue.num 0, variable_type := "scalar" }

/-- Concrete scalar output variable named o2. -/
def exOut2 : OutputVariable :=
  { name := "o2", value := VarValue.num 0, variable_type := "scalar" }

/-- Concrete two-feature instance with the identity network, no transformers
and tensor output format, as built by the constructor from variables a and b. -/
def exModel : PyTorchModel :=
  { input_variables := [exInputA, exInputB]
    default_values := [10, 20]
    output_variables := [exOut1, exOut2]
    input_transformers := []
    output_transformers := []
    output_format := "tensor"
    model := fun t => t }

/-- Concrete instance whose network always produces one output value 7. -/
def exModelConst : PyTorchModel :=
  { input_variables := [exInputA, exInputB]
    default_values := [10, 20]
    output_variables := [exOut1]
    input_transformers := []
    output_transformers := []
    output_format := "tensor"
    model := fun _ => ⟨[1], [7]⟩ }

/-- Concrete instance with an explicitly configured feature order of length
three while only two input variables exist, as the constructor permits. -/
def exModelBadOrder : PyTorchModel :=
  { input_variables := [exInputA, exInputB]
    default_values := [10, 20]
    output_variables := [exOut1]
    input_transformers := []
    output_transformers := []
    output_format := "tensor"
    feature_order := some ["a", "b", "c"]
    model := fun t => t }

/-- Concrete transformer adding one to every entry. -/
def exShift : Transformer :=
  ⟨fun t => ⟨t.shape, t.data.map (fun x => x + 1)⟩,
   fun t => ⟨t.shape, t.data.map (fun x => x - 1)⟩⟩

/-- Concrete transformer doubling every entry. -/
def exScale : Transformer :=
  ⟨fun t => ⟨t.shape, t.data.map (fun x => 2 * x)⟩,
   fun t => ⟨t.shape, t.data.map (fun x => x / 2)⟩⟩

/-- Concrete instance carrying two input transformers and two output
transformers. -/
def exModelTrans : PyTorchModel :=
  { input_variables := [exInputA, exInputB]
    default_values := [10, 20]
    output_variables := [exOut1, exOut2]
    input_transformers := [exShift, exScale]
    output_transformers := [exShift, exScale]
    output_format := "tensor"
    model := fun t => t }

section Lemmas

open Tensor

theorem indexOf?_mem {F : List String} {k : String} (h : k ∈ F) :
    ∃ i, indexOf? F k = some i ∧ i < F.length ∧ F.getD i "" = k := by
  induction F with
  | nil => cases h
  | cons f rest ih =>
    by_cases hf : f = k
    · exact ⟨0, by simp [indexOf?, hf], by simp, by simp [hf]⟩
    · rcases List.mem_cons.mp h with h | h
      · exact absurd h.symm hf
      · rcases ih h with ⟨i, h1, h2, h3⟩
        exact ⟨i + 1, by simp [indexOf?, hf, h1], by simpa using h2, by simpa using h3⟩

theorem setLastSlice_shape {t v t2 : Tensor} {idx : Nat}
    (h : Tensor.setLastSlice t idx v = some t2) : t2.shape = t.shape := by
  unfold Tensor.setLastSlice at h
  rcases hl : t.shape.getLast? with _ | n
  · rw [hl] at h; cases h
  · rw [hl] at h
    by_cases hc : broadcastsTo v.shape t.shape.dropLast = true ∧ idx < n
    · simp only [hc, if_pos] at h
      cases h; rfl
    · simp only [if_neg hc] at h; cases h

theorem arrangeFold_shape {F : List String} {vals : List (String × Tensor)}
    {init t : Tensor} (h : arrangeFold F vals init = some t) : t.shape = init.shape := by
  induction vals generalizing init with
  | nil => cases h; rfl
  | cons kv rest ih =>
    unfold arrangeFold at h
    simp only [List.foldlM_cons] at h
    rcases hi : indexOf? F kv.1 with _ | i
    · rw [hi] at h; cases h
    · rw [hi] at h
      simp only [Option.bind_eq_bind, Option.some_bind] at h
      rcases hs : Tensor.setLastSlice init i kv.2 with _ | acc
      · rw [hs] at h; cases h
      · rw [hs] at h
        have := @ih acc (by simpa [arrangeFold] using h)
        rw [this, setLastSlice_shape hs]

theorem tileDefaults_nil (d : List Rat) :
    tileDefaults d [] = ⟨[d.length], d⟩ := by
  simp [tileDefaults]

theorem indexOf?_some {F : List String} {k : String} {i : Nat}
    (h : indexOf? F k = some i) : i < F.length ∧ F.getD i "" = k := by
  induction F generalizing i with
  | nil => cases h
  | cons f rest ih =>
    by_cases hf : f = k
    · simp only [indexOf?, if_pos hf] at h
      cases h
      exact ⟨by simp, by simpa using hf⟩
    · simp only [indexOf?, if_neg hf] at h
      rcases hi : indexOf? rest k with _ | j
      · rw [hi] at h; cases h
      · rw [hi] at h
        rcases ih hi with ⟨h1, h2⟩
        have h' : i = j + 1 := by
          simpa using h.symm
        subst h'
        exact ⟨by simpa using h1, by simpa using h2⟩

theorem setLastSlice_vec {d : List Rat} {n i : Nat} {q : Rat}
    (hd : d.length = n) (hi : i < n) :
    Tensor.setLastSlice ⟨[n], d⟩ i (Tensor.ofScalar q) = some ⟨[n], d.set i q⟩ := by
  simp only [Tensor.setLastSlice, List.getLast?_singleton, List.dropLast_single]
  rw [if_pos (show broadcastsTo (Tensor.ofScalar q).shape ([] : List Nat) = true ∧ i < n from
    ⟨rfl, hi⟩)]
  simp only [Option.some.injEq]
  congr 1
  apply List.ext_getElem
  · simp [hd]
  · intro j h1 h2
    simp only [List.getElem_map, List.getElem_range]
    have hj : j < n := by
      simpa [hd] using h1
    rw [Nat.mod_eq_of_lt hj]
    by_cases hji : j = i
    · rw [if_pos hji]
      have hb : Tensor.broadcastGet (Tensor.ofScalar q) (Tensor.multiIndex [] (j / n)) = q := rfl
      rw [hb, List.getElem_set, if_pos hji.symm]
    · rw [if_neg hji, List.getElem_set_ne (fun h => hji h.symm)]
      exact List.getD_eq_getElem d 0 (by simpa [hd] using hj)

theorem fillData_nil (F : List String) (d : List Rat) (h : F.length = d.length) :
    fillData F d [] = d := by
  unfold fillData
  simp only [List.find?_nil, Option.map_none, Option.getD_none]
  exact List.map_snd_zip F d (le_of_eq h.symm)

theorem fillData_length (F : List String) (d : List Rat) (l : List (String × Rat)) :
    (fillData F d l).length = min F.length d.length := by
  simp [fillData]

theorem fillData_cons (F : List String) (hnd : F.Nodup) (d : List Rat)
    (hF : F.length = d.length) (k : String) (q : Rat) (l : List (String × Rat))
    (hk : k ∉ l.map Prod.fst) {i : Nat} (hi : indexOf? F k = some i) :
    fillData F d ((k, q) :: l) = fillData F (d.set i q) l := by
  rcases indexOf?_some hi with ⟨hil, hik⟩
  apply List.ext_getElem
  · simp [fillData_length]
  · intro j h1 h2
    have hjF : j < F.length := by
      have := fillData_length F d ((k, q) :: l) ▸ h1
      omega
    have hjd : j < d.length := hF ▸ hjF
    unfold fillData
    simp only [List.getElem_map, List.getElem_zip]
    have hFi : F[i] = k := by
      rw [← hik]
      exact (List.getD_eq_getElem F "" hil).symm
    have hfind : l.find? (fun q' => q'.1 = k) = none := by
      rw [List.find?_eq_none]
      intro x hx
      simp only [decide_eq_true_eq]
      intro hx1
      exact hk (by rw [← hx1]; exact List.mem_map.mpr ⟨x, hx, rfl⟩)
    by_cases hkj : k = F[j]
    · have hij : i = j := hnd.getElem_inj_iff.mp (by rw [hFi, hkj])
      rw [← hkj, List.find?_cons_of_pos _ (by simp), hfind, List.getElem_set, if_pos hij]
      simp
    · have hij : i ≠ j := by
        intro h
        apply hkj
        rw [← hik, h]
        exact List.getD_eq_getElem F "" hjF
      rw [List.find?_cons_of_neg _ (by simp [hkj]), List.getElem_set, if_neg hij]

theorem arrangeFold_vec (F : List String) (hnd : F.Nodup) :
    ∀ (l : List (String × Rat)) (d : List Rat), F.length = d.length →
      (∀ p ∈ l, p.1 ∈ F) → (l.map Prod.fst).Nodup →
      arrangeFold F (l.map (fun p => (p.1, Tensor.ofScalar p.2))) ⟨[d.length], d⟩
        = some ⟨[d.length], fillData F d l⟩ := by
  intro l
  induction l with
  | nil =>
    intro d hF _ _
    simp [arrangeFold, fillData_nil F d hF]
  | cons p rest ih =>
    intro d hF hsub hnds
    obtain ⟨k, q⟩ := p
    rcases indexOf?_mem (hsub (k, q) (List.mem_cons_self _ _)) with ⟨i, hio, hil, _⟩
    have hin : i < d.length := hF ▸ hil
    rw [List.map_cons] at hnds
    rcases List.nodup_cons.mp hnds with ⟨hknotin, hndrest⟩
    have hrest := ih (d.set i q) (by simpa using hF)
      (fun p hp => hsub p (List.mem_cons_of_mem _ hp)) hndrest
    unfold arrangeFold at hrest ⊢
    simp only [List.map_cons, List.foldlM_cons, hio, Option.bind_eq_bind, Option.some_bind,
      setLastSlice_vec rfl hin]
    rw [fillData_cons F hnd d hF k q rest hknotin hio]
    simpa using hrest

theorem updValue_names (vars : List InputVariable) (k : String) (q : Rat) :
    (vars.map (fun v => if v.name = k then { v with value := q } else v)).map
        (fun v => v.name)
      = vars.map (fun v => v.name) := by
  induction vars with
  | nil => rfl
  | cons v rest ih =>
    by_cases hv : v.name = k <;> simp [hv, ih]

theorem setVarValue_eq (vars : List InputVariable) (k : String) (q : Rat)
    (h : k ∈ vars.map (fun v => v.name)) :
    setVarValue vars k q
      = some (vars.map (fun v => if v.name = k then { v with value := q } else v)) := by
  unfold setVarValue
  rcases List.mem_map.mp h with ⟨v, hv, hvk⟩
  rw [if_pos (List.any_eq_true.mpr ⟨v, hv, by simp [hvk]⟩)]

theorem prepare_floats : ∀ (l : List (String × Rat)) (vars : List InputVariable),
    (∀ p ∈ l, p.1 ∈ vars.map (fun v => v.name)) →
    ∃ vars2, prepare_inputs vars (l.map (fun p => (p.1, InputValue.float p.2)))
      = some (l.map (fun p => (p.1, Tensor.ofScalar p.2)), vars2) ∧
      vars2.map (fun v => v.name) = vars.map (fun v => v.name) := by
  intro l
  induction l with
  | nil => exact fun vars _ => ⟨vars, rfl, rfl⟩
  | cons p rest ih =>
    intro vars hsub
    obtain ⟨k, q⟩ := p
    have hk : k ∈ vars.map (fun v => v.name) := hsub (k, q) (List.mem_cons_self _ _)
    have hnames := updValue_names vars k q
    rcases ih (vars.map (fun v => if v.name = k then { v with value := q } else v))
        (fun p hp => by rw [hnames]; exact hsub p (List.mem_cons_of_mem _ hp)) with
      ⟨vars2, hpr, hn2⟩
    refine ⟨vars2, ?_, hn2.trans hnames⟩
    simp only [List.map_cons]
    show prepare_inputs vars ((k, InputValue.float q) :: rest.map _) = _
    simp only [prepare_inputs, setVarValue_eq vars k q hk, Option.bind_eq_bind,
      Option.some_bind, hpr]
    rfl

theorem arrange_floats (m : PyTorchModel) (hm : InputConforming m) (l : List (String × Rat))
    (hne : l ≠ []) (hsub : ∀ p ∈ l, p.1 ∈ m.features) (hnds : (l.map Prod.fst).Nodup) :
    arrange_inputs m (l.map (fun p => (p.1, Tensor.ofScalar p.2)))
      = some ⟨[m.default_values.length],
          fillData m.features m.default_values l⟩ := by
  obtain ⟨hd, hf, hnames⟩ := hm
  have hF : m.features.length = m.default_values.length := by
    rw [hd, hf]; simp
  have hFnd : m.features.Nodup := by
    rw [hf]; exact hnames
  obtain ⟨p, rest, rfl⟩ : ∃ p rest, l = p :: rest := by
    cases l with
    | nil => exact absurd rfl hne
    | cons a b => exact ⟨a, b, rfl⟩
  have harr := arrangeFold_vec m.features hFnd (p :: rest) m.default_values hF hsub hnds
  unfold arrange_inputs arrangeCore
  simp only [List.map_cons] at harr ⊢
  rw [show (Tensor.ofScalar p.2).shape = ([] : List Nat) from rfl, tileDefaults_nil, harr]
  simp only [Option.bind_eq_bind, Option.some_bind]
  have hcond : ([m.default_values.length] : List Nat).getLastD 0 = m.features.length := by
    simp [List.getLastD]
    exact hF.symm
  rw [if_pos hcond]

theorem evaluate_eq_pipeline (m : PyTorchModel) (input : List (String × InputValue))
    (pr : List (String × Tensor) × List InputVariable) (A : Tensor)
    (h1 : prepare_inputs m.input_variables input = some pr)
    (h2 : arrange_inputs m pr.1 = some A) :
    evaluate m input = (parse_outputs m.outputs
        (transform_outputs m.output_transformers
          (m.model (transform_inputs m.input_transformers A)))).bind
      (fun pred => (prepare_outputs m.output_variables m.output_format pred).map
        (fun ro => (ro.1, { m with input_variables := pr.2, output_variables := ro.2 }))) := by
  unfold evaluate
  rw [h1]
  simp only [Option.bind_eq_bind, Option.some_bind]
  rw [h2]
  simp only [Option.some_bind]
  rcases hp : parse_outputs m.outputs (transform_outputs m.output_transformers
      (m.model (transform_inputs m.input_transformers A))) with _ | pred
  · rfl
  · simp only [Option.some_bind]
    rcases hq : prepare_outputs m.output_variables m.output_format pred with _ | ro
    · rfl
    · rfl

theorem evalResult_eq_pipeline (m : PyTorchModel) (input : List (String × InputValue))
    (pr : List (String × Tensor) × List InputVariable) (A : Tensor)
    (h1 : prepare_inputs m.input_variables input = some pr)
    (h2 : arrange_inputs m pr.1 = some A) :
    evalResult m input = (parse_outputs m.outputs
        (transform_outputs m.output_transformers
          (m.model (transform_inputs m.input_transformers A)))).bind
      (fun pred => (prepare_outputs m.output_variables m.output_format pred).map
        (fun ro => ro.1)) := by
  unfold evalResult
  rw [evaluate_eq_pipeline m input pr A h1 h2]
  rcases hp : parse_outputs m.outputs (transform_outputs m.output_transformers
      (m.model (transform_inputs m.input_transformers A))) with _ | pred
  · rfl
  · simp only [Option.some_bind]
    rcases hq : prepare_outputs m.output_variables m.output_format pred with _ | ro
    · rfl
    · rfl

theorem evaluate_some_inv (m : PyTorchModel) (input : List (String × InputValue))
    (r : EvalResult) (st : PyTorchModel) (h : evaluate m input = some (r, st)) :
    ∃ pr A pred ro,
      prepare_inputs m.input_variables input = some pr ∧
      arrange_inputs m pr.1 = some A ∧
      parse_outputs m.outputs (transform_outputs m.output_transformers
        (m.model (transform_inputs m.input_transformers A))) = some pred ∧
      prepare_outputs m.output_variables m.output_format pred = some ro ∧
      r = ro.1 ∧ st = { m with input_variables := pr.2, output_variables := ro.2 } := by
  unfold evaluate at h
  rcases hpr : prepare_inputs m.input_variables input with _ | pr
  · rw [hpr] at h; cases h
  · rw [hpr] at h
    simp only [Option.bind_eq_bind, Option.some_bind] at h
    rcases hA : arrange_inputs m pr.1 with _ | A
    · rw [hA] at h; cases h
    · rw [hA] at h
      simp only [Option.some_bind] at h
      rcases hp : parse_outputs m.outputs (transform_outputs m.output_transformers
          (m.model (transform_inputs m.input_transformers A))) with _ | pred
      · rw [hp] at h; cases h
      · rw [hp] at h
        simp only [Option.some_bind] at h
        rcases hq : prepare_outputs m.output_variables m.output_format pred with _ | ro
        · rw [hq] at h; cases h
        · rw [hq] at h
          simp only [Option.pure_def, Option.some_bind, Option.some.injEq,
            Prod.mk.injEq] at h
          refine ⟨pr, A, pred, ro, ?_, ?_, ?_, ?_, ?_, ?_⟩ <;>
            first
              | rfl
              | exact hpr
              | exact hA
              | exact hp
              | exact hq
              | exact h.1.symm
              | exact h.2.symm

theorem find?_mapUpdate_frame {α : Type} (key : α → String) (f : α → α)
    (hf : ∀ x, key (f x) = key x) (L : List α) (j k : String) (hjk : j ≠ k) :
    (L.map (fun x => if key x = j then f x else x)).find? (fun x => key x = k)
      = L.find? (fun x => key x = k) := by
  induction L with
  | nil => rfl
  | cons x rest ih =>
    by_cases hj : key x = j
    · have hk : ¬ key (f x) = k := by
        rw [hf x, hj]; exact hjk
      have hk' : ¬ key x = k := by
        rw [hj]; exact hjk
      simp only [List.map_cons, if_pos hj]
      rw [List.find?_cons_of_neg _ (by simp [hk]), List.find?_cons_of_neg _ (by simp [hk']), ih]
    · simp only [List.map_cons, if_neg hj]
      by_cases hk : key x = k
      · rw [List.find?_cons_of_pos _ (by simp [hk]), List.find?_cons_of_pos _ (by simp [hk])]
      · rw [List.find?_cons_of_neg _ (by simp [hk]), List.find?_cons_of_neg _ (by simp [hk]), ih]

theorem find?_mapUpdate_self {α : Type} (key : α → String) (f : α → α)
    (hf : ∀ x, key (f x) = key x) (L : List α) (j : String) :
    (L.map (fun x => if key x = j then f x else x)).find? (fun x => key x = j)
      = (L.find? (fun x => key x = j)).map f := by
  induction L with
  | nil => rfl
  | cons x rest ih =>
    by_cases hj : key x = j
    · simp only [List.map_cons, if_pos hj]
      rw [List.find?_cons_of_pos _ (by simp [hf x, hj]), List.find?_cons_of_pos _ (by simp [hj])]
      rfl
    · simp only [List.map_cons, if_neg hj]
      rw [List.find?_cons_of_neg _ (by simp [hj]), List.find?_cons_of_neg _ (by simp [hj]), ih]

theorem find?_graph (F : List String) (g : String → Rat) (k : String) (hk : k ∈ F) :
    (F.map (fun f => (f, g f))).find? (fun p => p.1 = k) = some (k, g k) := by
  induction F with
  | nil => cases hk
  | cons f rest ih =>
    by_cases hf : f = k
    · subst hf
      simp only [List.map_cons]
      rw [List.find?_cons_of_pos _ (by simp)]
    · rcases List.mem_cons.mp hk with h | h
      · exact absurd h.symm hf
      · simp only [List.map_cons]
        rw [List.find?_cons_of_neg _ (by simp [hf]), ih h]

theorem find?_key_getElem {α : Type} (key : α → String) :
    ∀ (L : List α), (L.map key).Nodup → ∀ j : Nat, (hj : j < L.length) →
      L.find? (fun x => key x = key (L[j])) = some (L[j]) := by
  intro L
  induction L with
  | nil =>
    intro _ j hj
    cases hj
  | cons x rest ih =>
    intro hnd j hj
    rw [List.map_cons, List.nodup_cons] at hnd
    rcases hnd with ⟨hx, hrest⟩
    cases j with
    | zero =>
      rw [List.find?_cons_of_pos _ (by simp)]
      rfl
    | succ i =>
      have hi : i < rest.length := by simpa using hj
      have hne : ¬ key x = key (rest[i]) := by
        intro he
        exact hx (he ▸ List.mem_map.mpr ⟨rest[i], List.getElem_mem hi, rfl⟩)
      have hgoal := ih hrest i hi
      simp only [List.getElem_cons_succ]
      rw [List.find?_cons_of_neg _ (by simp [hne]), hgoal]

theorem fillData_fullSupply (m : PyTorchModel) (hm : InputConforming m)
    (l : List (String × Rat)) :
    fillData m.features m.default_values
        (m.features.map (fun f => (f, suppliedOr m l f)))
      = fillData m.features m.default_values l := by
  rcases hm with ⟨hd, hf, hnames⟩
  have hF : m.features.length = m.default_values.length := by
    rw [hd, hf]; simp
  apply List.ext_getElem
  · simp [fillData_length]
  · intro j h1 h2
    have hjF : j < m.features.length := by
      have := fillData_length m.features m.default_values l ▸ h2
      omega
    have hjd : j < m.default_values.length := hF ▸ hjF
    unfold fillData
    simp only [List.getElem_map, List.getElem_zip]
    rw [find?_graph m.features (suppliedOr m l) _ (List.getElem_mem hjF)]
    rcases hfj : l.find? (fun p => p.1 = m.features[j]) with _ | p
    · rw [hfj]
      simp only [Option.map_some', Option.getD_some, Option.map_none', Option.getD_none]
      unfold suppliedOr
      rw [hfj]
      simp only [Option.map_none', Option.getD_none]
      unfold defaultOf
      have hjv : j < m.input_variables.length := by
        have : m.features.length = m.input_variables.length := by rw [hf]; simp
        omega
      have hjm : j < (m.input_variables.map (fun v => v.name)).length := by
        simpa using hjv
      have hname : m.features[j] = (m.input_variables[j]).name := by
        have : m.features[j] = (m.input_variables.map (fun v => v.name))[j] := by
          congr 1
        rw [this, List.getElem_map]
      have hfind := find?_key_getElem (fun v : InputVariable => v.name)
        m.input_variables (by exact hnames) j hjv
      rw [hname, hfind]
      simp only [Option.map_some', Option.getD_some]
      have hjd2 : j < (m.input_variables.map (fun v => v.default)).length := by
        rw [← hd]
        exact hjd
      have : m.default_values[j] = ((m.input_variables.map (fun v => v.default))[j]) := by
        congr 1
      rw [this, List.getElem_map]
    · rw [hfj]
      simp only [Option.map_some', Option.getD_some]
      unfold suppliedOr
      rw [hfj]
      rfl

theorem prepare_tensor_cons (vs : List InputVariable) (k : String) (t : Tensor)
    (r : List (String × InputValue)) (hk : k ∈ vs.map (fun x => x.name)) :
    prepare_inputs vs ((k, InputValue.tensor t) :: r)
      = (prepare_inputs (if (t.squeeze).dim = 0
            then vs.map (fun x => if x.name = k then { x with value := (t.squeeze).item } else x)
            else vs) r).map (fun pr => ((k, t.squeeze) :: pr.1, pr.2)) := by
  by_cases h0 : (t.squeeze).dim = 0
  · simp only [prepare_inputs, h0, if_true, setVarValue_eq vs k _ hk, Option.bind_eq_bind,
      Option.some_bind]
    rw [Option.map_eq_bind]
    rfl
  · simp only [prepare_inputs, h0, if_false]
    rw [Option.map_eq_bind]
    rfl

theorem prepare_two_tensors (vs : List InputVariable) (k1 k2 : String) (u v : Tensor)
    (hk1 : k1 ∈ vs.map (fun x => x.name)) (hk2 : k2 ∈ vs.map (fun x => x.name)) :
    ∃ vars2, prepare_inputs vs [(k1, InputValue.tensor u), (k2, InputValue.tensor v)]
      = some ([(k1, u.squeeze), (k2, v.squeeze)], vars2) := by
  rw [prepare_tensor_cons vs k1 u _ hk1]
  obtain ⟨VS1, hVS1⟩ : ∃ w, (if (u.squeeze).dim = 0
      then vs.map (fun x => if x.name = k1 then { x with value := (u.squeeze).item } else x)
      else vs) = w := ⟨_, rfl⟩
  have hk2' : k2 ∈ VS1.map (fun x => x.name) := by
    rw [← hVS1]
    by_cases h0 : (u.squeeze).dim = 0
    · rw [if_pos h0, updValue_names]
      exact hk2
    · rw [if_neg h0]
      exact hk2
  rw [hVS1, prepare_tensor_cons VS1 k2 v _ hk2']
  obtain ⟨VS2, hVS2⟩ : ∃ w, (if (v.squeeze).dim = 0
      then VS1.map (fun x => if x.name = k2 then { x with value := (v.squeeze).item } else x)
      else VS1) = w := ⟨_, rfl⟩
  rw [hVS2]
  exact ⟨VS2, rfl⟩

theorem transform_inputs_foldl : ∀ (ts : List Transformer) (x : Tensor),
    transform_inputs ts x = ts.foldl (fun w tr => tr.forward w) x := by
  intro ts
  induction ts with
  | nil => intro x; rfl
  | cons t rest ih =>
    intro x
    rw [List.foldl_cons, ← ih]
    rfl

theorem transform_outputs_foldl : ∀ (ts : List Transformer) (x : Tensor),
    transform_outputs ts x = ts.foldl (fun w tr => tr.untransform w) x := by
  intro ts
  induction ts with
  | nil => intro x; rfl
  | cons t rest ih =>
    intro x
    rw [List.foldl_cons, ← ih]
    rfl

theorem prepare_outputs_fold (vars0 : List OutputVariable) (fmt : String)
    (pred : List (String × Tensor)) (ro : EvalResult × List OutputVariable)
    (h : prepare_outputs vars0 fmt pred = some ro) :
    vars0.foldlM (fun acc v => prepare_outputs_step pred acc v) vars0 = some ro.2 := by
  unfold prepare_outputs at h
  rcases hfold : vars0.foldlM (fun acc v => prepare_outputs_step pred acc v) vars0 with _ | fv
  · rw [hfold] at h; cases h
  · rw [hfold] at h
    simp only [Option.bind_eq_bind, Option.some_bind] at h
    by_cases ht : fmt = "tensor"
    · rw [if_pos ht] at h
      cases h
      rfl
    · rw [if_neg ht] at h
      by_cases hv : fmt = "variable"
      · rw [if_pos hv] at h
        cases h
        rfl
      · rw [if_neg hv] at h
        cases h
        rfl

theorem prepare_outputs_tensor_fmt (vars0 : List OutputVariable)
    (pred : List (String × Tensor)) (ro : EvalResult × List OutputVariable)
    (h : prepare_outputs vars0 "tensor" pred = some ro) :
    ro.1 = EvalResult.tensors pred := by
  unfold prepare_outputs at h
  rcases hfold : vars0.foldlM (fun acc v => prepare_outputs_step pred acc v) vars0 with _ | fv
  · rw [hfold] at h; cases h
  · rw [hfold] at h
    simp only [Option.bind_eq_bind, Option.some_bind, if_pos] at h
    cases h
    rfl

theorem prepare_outputs_raw_fmt (vars0 : List OutputVariable)
    (pred : List (String × Tensor)) (ro : EvalResult × List OutputVariable)
    (h : prepare_outputs vars0 "raw" pred = some ro) :
    ro.1 = EvalResult.raw (ro.2.map (fun v => (v.name, v.value))) := by
  unfold prepare_outputs at h
  rcases hfold : vars0.foldlM (fun acc v => prepare_outputs_step pred acc v) vars0 with _ | fv
  · rw [hfold] at h; cases h
  · rw [hfold] at h
    simp only [Option.bind_eq_bind, Option.some_bind] at h
    rw [if_neg (by decide : ¬ ("raw" : String) = "tensor"),
      if_neg (by decide : ¬ ("raw" : String) = "variable")] at h
    cases h
    rfl

theorem prepare_outputs_tensors_result (vars0 : List OutputVariable) (fmt : String)
    (pred : List (String × Tensor)) (ro : EvalResult × List OutputVariable)
    (d : List (String × Tensor)) (h : prepare_outputs vars0 fmt pred = some ro)
    (hro : ro.1 = EvalResult.tensors d) : d = pred := by
  unfold prepare_outputs at h
  rcases hfold : vars0.foldlM (fun acc v => prepare_outputs_step pred acc v) vars0 with _ | fv
  · rw [hfold] at h; cases h
  · rw [hfold] at h
    simp only [Option.bind_eq_bind, Option.some_bind] at h
    by_cases ht : fmt = "tensor"
    · rw [if_pos ht] at h
      cases h
      cases hro
      rfl
    · rw [if_neg ht] at h
      by_cases hv : fmt = "variable"
      · rw [if_pos hv] at h
        cases h
        cases hro
      · rw [if_neg hv] at h
        cases h
        cases hro

theorem setVarValue_frame (vars vars1 : List InputVariable) (j k : String) (q : Rat)
    (hjk : j ≠ k) (h : setVarValue vars j q = some vars1) :
    findVar vars1 k = findVar vars k := by
  unfold setVarValue at h
  by_cases hc : vars.any (fun v => v.name = j) = true
  · rw [if_pos hc] at h
    cases h
    exact find?_mapUpdate_frame (fun v => v.name) (fun v => { v with value := q })
      (fun x => rfl) vars j k hjk
  · rw [if_neg hc] at h
    cases h

theorem setVarValue_self (vars vars1 : List InputVariable) (j : String) (q : Rat)
    (h : setVarValue vars j q = some vars1) :
    findVar vars1 j = (findVar vars j).map (fun v => { v with value := q }) := by
  unfold setVarValue at h
  by_cases hc : vars.any (fun v => v.name = j) = true
  · rw [if_pos hc] at h
    cases h
    exact find?_mapUpdate_self (fun v => v.name) (fun v => { v with value := q })
      (fun x => rfl) vars j
  · rw [if_neg hc] at h
    cases h

theorem prepare_cons_inv (vars : List InputVariable) (k0 : String) (pay : InputValue)
    (rest : List (String × InputValue)) (pr : List (String × Tensor) × List InputVariable)
    (h : prepare_inputs vars ((k0, pay) :: rest) = some pr) :
    ∃ vars1 pr1, prepare_inputs vars1 rest = some pr1 ∧ pr.2 = pr1.2 ∧
      (∀ k, k0 ≠ k → findVar vars1 k = findVar vars k) := by
  rcases pay with v | q | z | t | s
  · simp only [prepare_inputs] at h
    rcases hsv : setVarValue vars k0 v.value with _ | vars1
    · rw [hsv] at h; cases h
    · rw [hsv] at h
      simp only [Option.bind_eq_bind, Option.some_bind] at h
      rcases hp : prepare_inputs vars1 rest with _ | pr1
      · rw [hp] at h; cases h
      · rw [hp] at h
        simp only [Option.bind_eq_bind, Option.pure_def, Option.some_bind, Option.some.injEq] at h
        exact ⟨vars1, pr1, hp, by rw [← h], fun k hk =>
          setVarValue_frame vars vars1 k0 k _ hk hsv⟩
  · simp only [prepare_inputs] at h
    rcases hsv : setVarValue vars k0 q with _ | vars1
    · rw [hsv] at h; cases h
    · rw [hsv] at h
      simp only [Option.bind_eq_bind, Option.some_bind] at h
      rcases hp : prepare_inputs vars1 rest with _ | pr1
      · rw [hp] at h; cases h
      · rw [hp] at h
        simp only [Option.bind_eq_bind, Option.pure_def, Option.some_bind, Option.some.injEq] at h
        exact ⟨vars1, pr1, hp, by rw [← h], fun k hk =>
          setVarValue_frame vars vars1 k0 k _ hk hsv⟩
  · exact ⟨vars, pr, h, rfl, fun _ _ => rfl⟩
  · by_cases h0 : (t.squeeze).dim = 0
    · simp only [prepare_inputs, h0, if_true] at h
      rcases hsv : setVarValue vars k0 ((t.squeeze).item) with _ | vars1
      · rw [hsv] at h; cases h
      · rw [hsv] at h
        simp only [Option.bind_eq_bind, Option.some_bind] at h
        rcases hp : prepare_inputs vars1 rest with _ | pr1
        · rw [hp] at h; cases h
        · rw [hp] at h
          simp only [Option.bind_eq_bind, Option.pure_def, Option.some_bind, Option.some.injEq] at h
          exact ⟨vars1, pr1, hp, by rw [← h], fun k hk =>
            setVarValue_frame vars vars1 k0 k _ hk hsv⟩
    · simp only [prepare_inputs, h0, if_false] at h
      rcases hp : prepare_inputs vars rest with _ | pr1
      · rw [hp] at h; cases h
      · rw [hp] at h
        simp only [Option.bind_eq_bind, Option.pure_def, Option.some_bind, Option.some.injEq] at h
        exact ⟨vars, pr1, hp, by rw [← h], fun _ _ => rfl⟩
  · exact ⟨vars, pr, h, rfl, fun _ _ => rfl⟩

theorem prepare_frame : ∀ (input : List (String × InputValue)) (vars : List InputVariable)
    (pr : List (String × Tensor) × List InputVariable) (k : String),
    k ∉ input.map Prod.fst → prepare_inputs vars input = some pr →
    findVar pr.2 k = findVar vars k := by
  intro input
  induction input with
  | nil =>
    intro vars pr k _ h
    cases h
    rfl
  | cons p rest ih =>
    intro vars pr k hk h
    obtain ⟨k0, pay⟩ := p
    have hk0 : k0 ≠ k := by
      intro he
      exact hk (by rw [List.map_cons, ← he]; exact List.mem_cons_self _ _)
    have hkrest : k ∉ rest.map Prod.fst := by
      intro hmem
      exact hk (by rw [List.map_cons]; exact List.mem_cons_of_mem _ hmem)
    rcases prepare_cons_inv vars k0 pay rest pr h with ⟨vars1, pr1, hp, h2, hframe⟩
    rw [h2, ih vars1 pr1 k hkrest hp, hframe k hk0]

theorem prepare_tensor_state : ∀ (input : List (String × InputValue))
    (vars : List InputVariable) (pr : List (String × Tensor) × List InputVariable)
    (name : String) (t : Tensor),
    (input.map Prod.fst).Nodup → (name, InputValue.tensor t) ∈ input →
    prepare_inputs vars input = some pr →
    (if (t.squeeze).dim = 0
      then findVar pr.2 name
        = (findVar vars name).map (fun v => { v with value := (t.squeeze).item })
      else findVar pr.2 name = findVar vars name) := by
  intro input
  induction input with
  | nil =>
    intro vars pr name t _ hmem
    cases hmem
  | cons p rest ih =>
    intro vars pr name t hnd hmem h
    obtain ⟨k0, pay⟩ := p
    rw [List.map_cons, List.nodup_cons] at hnd
    rcases hnd with ⟨hk0nin, hndrest⟩
    rcases List.mem_cons.mp hmem with heq | hmemrest
    · cases heq
      by_cases h0 : (t.squeeze).dim = 0
      · rw [if_pos h0]
        simp only [prepare_inputs, h0, if_true] at h
        rcases hsv : setVarValue vars name ((t.squeeze).item) with _ | vars1
        · rw [hsv] at h; cases h
        · rw [hsv] at h
          simp only [Option.bind_eq_bind, Option.some_bind] at h
          rcases hp : prepare_inputs vars1 rest with _ | pr1
          · rw [hp] at h; cases h
          · rw [hp] at h
            simp only [Option.bind_eq_bind, Option.pure_def, Option.some_bind, Option.some.injEq] at h
            have h2 : pr.2 = pr1.2 := by rw [← h]
            rw [h2, prepare_frame rest vars1 pr1 name hk0nin hp]
            exact setVarValue_self vars vars1 name _ hsv
      · rw [if_neg h0]
        simp only [prepare_inputs, h0, if_false] at h
        rcases hp : prepare_inputs vars rest with _ | pr1
        · rw [hp] at h; cases h
        · rw [hp] at h
          simp only [Option.bind_eq_bind, Option.pure_def, Option.some_bind, Option.some.injEq] at h
          have h2 : pr.2 = pr1.2 := by rw [← h]
          rw [h2]
          exact prepare_frame rest vars pr1 name hk0nin hp
    · have hk0name : k0 ≠ name := by
        intro he
        apply hk0nin
        rw [he]
        exact List.mem_map.mpr ⟨(name, InputValue.tensor t), hmemrest, rfl⟩
      rcases prepare_cons_inv vars k0 pay rest pr h with ⟨vars1, pr1, hp, h2, hframe⟩
      have hrec := ih vars1 pr1 name t hndrest hmemrest hp
      rw [h2]
      by_cases h0 : (t.squeeze).dim = 0
      · rw [if_pos h0] at hrec ⊢
        rw [hrec, hframe name hk0name]
      · rw [if_neg h0] at hrec ⊢
        rw [hrec, hframe name hk0name]

theorem applyLimit_frame (pred : List (String × Tensor)) (name : String)
    (refv : Option String) (setf : OutputVariable → Rat → OutputVariable)
    (vars vars2 : List OutputVariable) (k : String) (hk : name ≠ k)
    (hsetf : ∀ w q, (setf w q).name = w.name)
    (h : applyLimit pred name refv setf vars = some vars2) :
    vars2.find? (fun w => w.name = k) = vars.find? (fun w => w.name = k) := by
  rcases refv with _ | r
  · simp only [applyLimit] at h
    cases h
    rfl
  · simp only [applyLimit] at h
    rcases hlp : lookupPred pred r with _ | tt
    · rw [hlp] at h; cases h
    · rw [hlp] at h
      simp only [Option.bind_eq_bind, Option.some_bind] at h
      rcases hit : tt.itemOpt with _ | qq
      · rw [hit] at h; cases h
      · rw [hit] at h
        simp only [Option.pure_def, Option.some_bind, Option.some.injEq] at h
        rw [← h]
        exact find?_mapUpdate_frame (fun w => w.name) (fun w => setf w qq)
          (fun w => hsetf w qq) vars name k hk

theorem update_image_limits_frame (pred : List (String × Tensor)) (v : OutputVariable)
    (vars vars2 : List OutputVariable) (k : String) (hk : v.name ≠ k)
    (h : update_image_limits pred v vars = some vars2) :
    vars2.find? (fun w => w.name = k) = vars.find? (fun w => w.name = k) := by
  unfold update_image_limits at h
  rcases h1 : applyLimit pred v.name v.x_min_variable
      (fun w q => { w with x_min := q }) vars with _ | w1
  · rw [h1] at h; cases h
  · rw [h1] at h
    simp only [Option.bind_eq_bind, Option.some_bind] at h
    rcases h2 : applyLimit pred v.name v.x_max_variable
        (fun w q => { w with x_max := q }) w1 with _ | w2
    · rw [h2] at h; cases h
    · rw [h2] at h
      simp only [Option.some_bind] at h
      rcases h3 : applyLimit pred v.name v.y_min_variable
          (fun w q => { w with y_min := q }) w2 with _ | w3
      · rw [h3] at h; cases h
      · rw [h3] at h
        simp only [Option.some_bind] at h
        rw [applyLimit_frame pred v.name v.y_max_variable
            (fun w q => { w with y_max := q }) w3 vars2 k hk (fun w q => rfl) h,
          applyLimit_frame pred v.name v.y_min_variable
            (fun w q => { w with y_min := q }) w2 w3 k hk (fun w q => rfl) h3,
          applyLimit_frame pred v.name v.x_max_variable
            (fun w q => { w with x_max := q }) w1 w2 k hk (fun w q => rfl) h2,
          applyLimit_frame pred v.name v.x_min_variable
            (fun w q => { w with x_min := q }) vars w1 k hk (fun w q => rfl) h1]

theorem step_frame (pred : List (String × Tensor)) (acc acc2 : List OutputVariable)
    (u : OutputVariable) (k : String) (hk : u.name ≠ k)
    (h : prepare_outputs_step pred acc u = some acc2) :
    acc2.find? (fun w => w.name = k) = acc.find? (fun w => w.name = k) := by
  unfold prepare_outputs_step at h
  rcases hlp : lookupPred pred u.name with _ | t
  · rw [hlp] at h; cases h
  · rw [hlp] at h
    simp only [Option.bind_eq_bind, Option.some_bind] at h
    by_cases h0 : t.dim = 0
    · rw [if_pos h0] at h
      by_cases hsc : u.variable_type = "scalar"
      · rw [if_pos hsc] at h
        simp only [Option.pure_def, Option.some.injEq] at h
        rw [← h]
        exact find?_mapUpdate_frame (fun w => w.name)
          (fun w => { w with value := VarValue.num t.item }) (fun w => rfl) acc u.name k hk
      · rw [if_neg hsc] at h
        by_cases him : u.variable_type = "image"
        · rw [if_pos him] at h
          rcases hrs : t.reshape u.shape with _ | rr
          · rw [hrs] at h; cases h
          · rw [hrs] at h
            simp only [Option.some_bind] at h
            rw [update_image_limits_frame pred u _ acc2 k hk h]
            exact find?_mapUpdate_frame (fun w => w.name)
              (fun w => { w with value := VarValue.arr rr }) (fun w => rfl) acc u.name k hk
        · rw [if_neg him] at h
          simp only [Option.pure_def, Option.some.injEq] at h
          rw [← h]
    · rw [if_neg h0] at h
      simp only [Option.pure_def, Option.some.injEq] at h
      rw [← h]

theorem fold_frame (pred : List (String × Tensor)) :
    ∀ (l : List OutputVariable) (acc fv : List OutputVariable) (k : String),
    (∀ u ∈ l, u.name ≠ k) →
    l.foldlM (fun acc v => prepare_outputs_step pred acc v) acc = some fv →
    fv.find? (fun w => w.name = k) = acc.find? (fun w => w.name = k) := by
  intro l
  induction l with
  | nil =>
    intro acc fv k _ h
    cases h
    rfl
  | cons u rest ih =>
    intro acc fv k hk h
    rw [List.foldlM_cons] at h
    rcases hs : prepare_outputs_step pred acc u with _ | acc1
    · rw [hs] at h; cases h
    · rw [hs] at h
      simp only [Option.bind_eq_bind, Option.some_bind] at h
      rw [ih acc1 fv k (fun u hu => hk u (List.mem_cons_of_mem _ hu)) h,
        step_frame pred acc acc1 u k (hk u (List.mem_cons_self _ _)) hs]

theorem step_action (pred : List (String × Tensor)) (acc : List OutputVariable)
    (u : OutputVariable) (t : Tensor) (hsc : u.variable_type = "scalar")
    (hlp : lookupPred pred u.name = some t) (h0 : t.dim = 0) :
    prepare_outputs_step pred acc u
      = some (acc.map (fun w =>
          if w.name = u.name then { w with value := VarValue.num t.item } else w)) := by
  unfold prepare_outputs_step
  rw [hlp]
  simp only [Option.bind_eq_bind, Option.some_bind]
  rw [if_pos h0, if_pos hsc]
  rfl

theorem fold_value (pred : List (String × Tensor)) (vars0 : List OutputVariable)
    (hnd : (vars0.map (fun v => v.name)).Nodup) (v : OutputVariable) (hv : v ∈ vars0)
    (hsc : v.variable_type = "scalar") (t : Tensor) (hlp : lookupPred pred v.name = some t)
    (h0 : t.dim = 0) (fv : List OutputVariable)
    (h : vars0.foldlM (fun acc u => prepare_outputs_step pred acc u) vars0 = some fv) :
    fv.find? (fun w => w.name = v.name) = some { v with value := VarValue.num t.item } := by
  rcases List.append_of_mem hv with ⟨l1, l2, rfl⟩
  have hnd2 : (l1.map (fun v => v.name)).Nodup ∧ ((v :: l2).map (fun v => v.name)).Nodup ∧
      (l1.map (fun v => v.name)).Disjoint ((v :: l2).map (fun v => v.name)) := by
    rw [← List.nodup_append]
    simpa using hnd
  have hnotl1 : ∀ u ∈ l1, u.name ≠ v.name := by
    intro u hu he
    exact hnd2.2.2 (List.mem_map.mpr ⟨u, hu, rfl⟩)
      (by rw [List.map_cons, he]; exact List.mem_cons_self _ _)
  have hnotl2 : ∀ u ∈ l2, u.name ≠ v.name := by
    intro u hu he
    have := hnd2.2.1
    rw [List.map_cons, List.nodup_cons] at this
    exact this.1 (by rw [← he]; exact List.mem_map.mpr ⟨u, hu, rfl⟩)
  rw [List.foldlM_append] at h
  rcases h1 : l1.foldlM (fun acc u => prepare_outputs_step pred acc u) (l1 ++ v :: l2)
    with _ | acc1
  · rw [h1] at h; cases h
  · rw [h1] at h
    simp only [Option.bind_eq_bind, Option.some_bind, List.foldlM_cons] at h
    rcases hs : prepare_outputs_step pred acc1 v with _ | acc2
    · rw [hs] at h; cases h
    · rw [hs] at h
      simp only [Option.some_bind] at h
      have hacc1 : acc1.find? (fun w => w.name = v.name) = some v := by
        rw [fold_frame pred l1 _ acc1 v.name hnotl1 h1, List.find?_append]
        have hl1none : l1.find? (fun w => w.name = v.name) = none := by
          rw [List.find?_eq_none]
          intro u hu
          simpa using hnotl1 u hu
        rw [hl1none, List.find?_cons_of_pos _ (by simp)]
        rfl
      rw [step_action pred acc1 v t hsc hlp h0] at hs
      have hacc2 : acc2 = acc1.map (fun w =>
          if w.name = v.name then { w with value := VarValue.num t.item } else w) :=
        (Option.some.inj hs).symm
      have hfind2 : acc2.find? (fun w => w.name = v.name)
          = some { v with value := VarValue.num t.item } := by
        rw [hacc2, find?_mapUpdate_self (fun w => w.name)
          (fun w => { w with value := VarValue.num t.item }) (fun w => rfl) acc1 v.name,
          hacc1]
        rfl
      rw [fold_frame pred l2 acc2 fv v.name hnotl2 h, hfind2]

theorem mapM_slices_dim0 (dat : List Rat) (k : Nat) :
    ∀ (outs : List String) (s : Nat), s + outs.length ≤ k →
    ∃ pred, ((List.enumFrom s outs).mapM (fun p => do
        let sl ← Tensor.lastSlice ⟨[1, k], dat⟩ p.1
        return (p.2, sl.squeeze))) = some pred ∧
      pred.map Prod.fst = outs ∧ ∀ p ∈ pred, p.2.dim = 0 := by
  intro outs
  induction outs with
  | nil =>
    intro s _
    exact ⟨[], rfl, rfl, by intro p hp; cases hp⟩
  | cons o rest ih =>
    intro s hs
    have hsk : s < k := by
      simp only [List.length_cons] at hs
      omega
    rcases ih (s + 1) (by simp only [List.length_cons] at hs; omega) with
      ⟨pred, hmapM, hkeys, hdim⟩
    obtain ⟨sl, hsl, hslshape⟩ : ∃ sl, Tensor.lastSlice ⟨[1, k], dat⟩ s = some sl ∧
        sl.shape = [1] := by
      have hred : Tensor.lastSlice ⟨[1, k], dat⟩ s
          = if s < k then some ⟨[1], (((Tensor.mk [1, k] dat).data.enum.filter
              (fun p => p.1 % k = s)).map (fun p => p.2))⟩ else none := rfl
      rw [hred, if_pos hsk]
      exact ⟨_, rfl, rfl⟩
    refine ⟨(o, sl.squeeze) :: pred, ?_, ?_, ?_⟩
    · rw [show List.enumFrom s (o :: rest) = (s, o) :: List.enumFrom (s + 1) rest from rfl,
        List.mapM_cons, hsl, hmapM]
      rfl
    · rw [List.map_cons, hkeys]
    · intro p hp
      rcases List.mem_cons.mp hp with rfl | hp2
      · show (sl.squeeze).dim = 0
        unfold Tensor.squeeze Tensor.dim
        rw [hslshape]
        rfl
      · exact hdim p hp2

theorem parse_outputs_vec (outs : List String) (y : Tensor) (k : Nat)
    (hy : y.shape = [k]) (ho : outs.length = k) :
    ∃ pred, parse_outputs outs y = some pred ∧ pred.map Prod.fst = outs ∧
      ∀ p ∈ pred, p.2.dim = 0 := by
  unfold parse_outputs
  have hdim : y.dim = 1 := by
    rw [Tensor.dim, hy]
    rfl
  rw [if_pos (Or.inl hdim)]
  have hU : y.unsqueeze0 = ⟨[1, k], y.data⟩ := by
    unfold Tensor.unsqueeze0
    rw [hy]
  rw [hU]
  have hm := mapM_slices_dim0 y.data k outs 0 (by omega)
  simpa [List.enum] using hm

theorem lookupPred_of_mem (pred : List (String × Tensor)) (k : String)
    (h : k ∈ pred.map Prod.fst) : ∃ t, lookupPred pred k = some t := by
  unfold lookupPred
  rcases List.mem_map.mp h with ⟨p, hp, rfl⟩
  rcases hf : pred.find? (fun q => q.1 = p.1) with _ | q
  · rw [List.find?_eq_none] at hf
    exact absurd (by simp) (hf p hp)
  · exact ⟨q.2, by rw [hf]; rfl⟩

theorem lookupPred_dim0 (pred : List (String × Tensor)) (k : String) (t : Tensor)
    (hdims : ∀ p ∈ pred, p.2.dim = 0) (hlp : lookupPred pred k = some t) : t.dim = 0 := by
  unfold lookupPred at hlp
  rcases hfq : pred.find? (fun q => q.1 = k) with _ | q
  · rw [hfq] at hlp; cases hlp
  · rw [hfq] at hlp
    have hqmem := List.mem_of_find?_eq_some hfq
    have hq2 : q.2 = t := by
      simpa using hlp
    rw [← hq2]
    exact hdims q hqmem

theorem fold_scalar_some (pred : List (String × Tensor)) :
    ∀ (l : List OutputVariable), (∀ v ∈ l, v.variable_type = "scalar" ∧
      ∃ t, lookupPred pred v.name = some t ∧ t.dim = 0) →
    ∀ acc, ∃ fv, l.foldlM (fun acc v => prepare_outputs_step pred acc v) acc = some fv := by
  intro l
  induction l with
  | nil =>
    intro _ acc
    exact ⟨acc, rfl⟩
  | cons v rest ih =>
    intro hl acc
    rcases hl v (List.mem_cons_self _ _) with ⟨hsc, t, hlp, h0⟩
    rcases ih (fun u hu => hl u (List.mem_cons_of_mem _ hu))
        (acc.map (fun w => if w.name = v.name
          then { w with value := VarValue.num t.item } else w)) with ⟨fv, hfv⟩
    refine ⟨fv, ?_⟩
    rw [List.foldlM_cons, step_action pred acc v t hsc hlp h0]
    simpa using hfv

theorem prepare_outputs_isSome (vars0 : List OutputVariable) (fmt : String)
    (pred : List (String × Tensor))
    (h : ∀ v ∈ vars0, v.variable_type = "scalar" ∧
      ∃ t, lookupPred pred v.name = some t ∧ t.dim = 0) :
    (prepare_outputs vars0 fmt pred).isSome := by
  rcases fold_scalar_some pred vars0 h vars0 with ⟨fv, hfv⟩
  unfold prepare_outputs
  rw [hfv]
  simp only [Option.bind_eq_bind, Option.some_bind]
  by_cases ht : fmt = "tensor"
  · rw [if_pos ht]
    rfl
  · rw [if_neg ht]
    by_cases hv : fmt = "variable"
    · rw [if_pos hv]
      rfl
    · rw [if_neg hv]
      rfl

theorem evaluate_none_of_arrange_none (m : PyTorchModel)
    (input : List (String × InputValue)) (pr : List (String × Tensor) × List InputVariable)
    (h1 : prepare_inputs m.input_variables input = some pr)
    (h2 : arrange_inputs m pr.1 = none) : evaluate m input = none := by
  unfold evaluate
  rw [h1]
  simp only [Option.bind_eq_bind, Option.some_bind]
  rw [h2]
  rfl

end Lemmas

section Claims

open Tensor

/-- Claim C1 (the code contradicts it): an input entry of unrecognized type,
here a string, is claimed to make evaluate fail with a TypeMismatch error and
return no results.  The source merely constructs TypeError(...) without
raising it, so evaluate silently drops the entry, substitutes the stored
default 20 for feature b, and returns a complete output mapping together with
the updated variable state. -/
theorem c1_unrecognized_type_no_error :
    evaluate exModel [("a", InputValue.float 1), ("b", InputValue.other "a string")]
      = some (EvalResult.tensors [("o1", ⟨[], [1]⟩), ("o2", ⟨[], [20]⟩)],
          { exModel with
              input_variables := [⟨"a", 10, 1⟩, exInputB]
              output_variables := [{ exOut1 with value := VarValue.num 1 },
                { exOut2 with value := VarValue.num 20 }] }) := by
  rfl

/-- Claim C2 (amended): for every NON-EMPTY subset of the feature order,
supplied as plain scalars, evaluate returns the same rendered result as the
call supplying every feature, with each missing feature supplied explicitly
as its stored default. -/
theorem c2_default_fill (m : PyTorchModel) (hm : InputConforming m)
    (l : List (String × Rat)) (hne : l ≠ [])
    (hsub : ∀ p ∈ l, p.1 ∈ m.features) (hnds : (l.map Prod.fst).Nodup) :
    evalResult m (l.map (fun p => (p.1, InputValue.float p.2)))
      = evalResult m (fullSupply m l) := by
  have hf := hm.2.1
  have hnames := hm.2.2
  have hsub' : ∀ p ∈ l, p.1 ∈ m.input_variables.map (fun v => v.name) := by
    intro p hp
    rw [← hf]
    exact hsub p hp
  rcases prepare_floats l m.input_variables hsub' with ⟨vars2, hpr, _⟩
  have harr := arrange_floats m hm l hne hsub hnds
  have hfull : fullSupply m l
      = (m.features.map (fun f => (f, suppliedOr m l f))).map
          (fun p => (p.1, InputValue.float p.2)) := by
    rw [List.map_map]
    rfl
  have hl2keys : (m.features.map (fun f => (f, suppliedOr m l f))).map Prod.fst
      = m.features := by
    rw [List.map_map]
    exact List.map_id m.features
  have hne2 : m.features.map (fun f => (f, suppliedOr m l f)) ≠ [] := by
    obtain ⟨p, hp⟩ : ∃ p, p ∈ l := by
      cases l with
      | nil => exact absurd rfl hne
      | cons a b => exact ⟨a, List.mem_cons_self a b⟩
    have hmem : p.1 ∈ m.features := hsub p hp
    intro h0
    rw [List.map_eq_nil_iff] at h0
    rw [h0] at hmem
    cases hmem
  have hsub2 : ∀ p ∈ m.features.map (fun f => (f, suppliedOr m l f)), p.1 ∈ m.features := by
    intro p hp
    rcases List.mem_map.mp hp with ⟨f, hfm, rfl⟩
    exact hfm
  have hnds2 : ((m.features.map (fun f => (f, suppliedOr m l f))).map Prod.fst).Nodup := by
    rw [hl2keys, hf]
    exact hnames
  have hsub2' : ∀ p ∈ m.features.map (fun f => (f, suppliedOr m l f)),
      p.1 ∈ m.input_variables.map (fun v => v.name) := by
    intro p hp
    rw [← hf]
    exact hsub2 p hp
  rcases prepare_floats (m.features.map (fun f => (f, suppliedOr m l f)))
      m.input_variables hsub2' with ⟨vars2b, hpr2, _⟩
  have harr2 := arrange_floats m hm (m.features.map (fun f => (f, suppliedOr m l f)))
    hne2 hsub2 hnds2
  rw [fillData_fullSupply m hm l] at harr2
  rw [hfull, evalResult_eq_pipeline m _ _ _ hpr harr,
    evalResult_eq_pipeline m _ _ _ hpr2 harr2]

/-- Witness for c2_default_fill: the two-feature instance with only feature a
supplied. -/
theorem c2_default_fill_witness :
    evalResult exModel ([(("a" : String), (1 : Rat))].map
        (fun p => (p.1, InputValue.float p.2)))
      = evalResult exModel (fullSupply exModel [(("a" : String), (1 : Rat))]) :=
  c2_default_fill exModel ⟨rfl, rfl, by decide⟩ [("a", 1)] (by decide)
    (by decide) (by decide)

/-- Counterexample to claim C2 as stated: for the EMPTY subset of features the
two calls differ, because evaluate on the empty mapping raises an IndexError
while the full default supply succeeds. -/
theorem c2_counterexample :
    evalResult exModel ([] : List (String × InputValue))
      ≠ evalResult exModel (fullSupply exModel ([] : List (String × Rat))) := by
  decide

/-- Claim C10 (amended): entries whose payload is a Python int are silently
dropped by the normalizer, because the TypeError in its final else branch is
constructed but never raised: evaluate behaves exactly as if those entries had
not been supplied at all, so the variable is not updated and the default is
substituted; in particular, when dropping them leaves the normalized mapping
empty, evaluate fails with an IndexError rather than completing. -/
theorem c10_int_entries_dropped (m : PyTorchModel)
    (input : List (String × InputValue)) :
    evaluate m input = evaluate m (dropIntEntries input) := by
  suffices h : ∀ (inp : List (String × InputValue)) (vars : List InputVariable),
      prepare_inputs vars inp = prepare_inputs vars (dropIntEntries inp) by
    unfold evaluate
    rw [h input m.input_variables]
  intro inp
  induction inp with
  | nil => intro vars; rfl
  | cons p rest ih =>
    intro vars
    obtain ⟨k, pay⟩ := p
    rcases pay with v | q | z | t | s
    · have hdse : dropIntEntries ((k, InputValue.variable v) :: rest)
          = (k, InputValue.variable v) :: dropIntEntries rest := by
        simp [dropIntEntries]
      rw [hdse]
      simp only [prepare_inputs, ih]
    · have hdse : dropIntEntries ((k, InputValue.float q) :: rest)
          = (k, InputValue.float q) :: dropIntEntries rest := by
        simp [dropIntEntries]
      rw [hdse]
      simp only [prepare_inputs, ih]
    · have hdse : dropIntEntries ((k, InputValue.int z) :: rest)
          = dropIntEntries rest := by
        simp [dropIntEntries]
      rw [hdse]
      show prepare_inputs vars rest = _
      exact ih vars
    · have hdse : dropIntEntries ((k, InputValue.tensor t) :: rest)
          = (k, InputValue.tensor t) :: dropIntEntries rest := by
        simp [dropIntEntries]
      rw [hdse]
      simp only [prepare_inputs, ih]
    · have hdse : dropIntEntries ((k, InputValue.other s) :: rest)
          = (k, InputValue.other s) :: dropIntEntries rest := by
        simp [dropIntEntries]
      rw [hdse]
      show prepare_inputs vars rest = prepare_inputs vars (dropIntEntries rest)
      exact ih vars

/-- Counterexample to claim C10 as stated: an input whose only entry is a
Python int makes evaluate raise (the IndexError of the arranger on the empty
normalized mapping), contradicting that evaluate raises no error. -/
theorem c10_counterexample :
    evaluate exModel [("a", InputValue.int 5)] = none := by
  rfl

/-- Claim C9 (amended): whenever the default vector and the configured feature
order have the same length, which the constructor guarantees when the feature
order is derived from the input variables, every tensor produced by the
assignment loop has the feature count as its last axis, so the ShapeMismatch
branch of the arranger never fires and arrange returns the tensor unchanged. -/
theorem c9_shape_check (m : PyTorchModel)
    (h : m.default_values.length = m.features.length)
    (vals : List (String × Tensor)) (t : Tensor) (hc : arrangeCore m vals = some t) :
    t.shape.getLastD 0 = m.features.length ∧ arrange_inputs m vals = some t := by
  obtain ⟨p, rest, rfl⟩ : ∃ p rest, vals = p :: rest := by
    cases vals with
    | nil => cases hc
    | cons a b => exact ⟨a, b, rfl⟩
  obtain ⟨k0, v0⟩ := p
  unfold arrangeCore at hc
  have hsh : t.shape = v0.shape ++ [m.default_values.length] := by
    rw [arrangeFold_shape hc]
    rfl
  have hlast : t.shape.getLastD 0 = m.features.length := by
    rw [hsh, List.getLastD_concat]
    exact h
  refine ⟨hlast, ?_⟩
  unfold arrange_inputs arrangeCore
  rw [hc]
  simp only [Option.bind_eq_bind, Option.some_bind]
  rw [if_pos hlast]

/-- Witness for c9_shape_check: the conforming two-feature instance, one
feature supplied as a scalar. -/
theorem c9_shape_check_witness :
    (Tensor.mk [2] [1, 20]).shape.getLastD 0 = exModel.features.length ∧
    arrange_inputs exModel [("a", Tensor.ofScalar 1)] = some ⟨[2], [1, 20]⟩ :=
  c9_shape_check exModel rfl [("a", Tensor.ofScalar 1)] ⟨[2], [1, 20]⟩ rfl

/-- Counterexample to claim C9 as stated: with a configured feature order of
length three over two input variables, a configuration the constructor
accepts, the assignment loop succeeds with last axis two, the width check
fails against the feature count three, and evaluate raises the ValueError of
the ShapeMismatch branch, so that branch is reachable. -/
theorem c9_counterexample :
    arrangeCore exModelBadOrder [("a", Tensor.ofScalar 1)] = some ⟨[2], [1, 20]⟩ ∧
    (Tensor.mk [2] [1, 20]).shape.getLastD 0 ≠ exModelBadOrder.features.length ∧
    arrange_inputs exModelBadOrder [("a", Tensor.ofScalar 1)] = none ∧
    evaluate exModelBadOrder [("a", InputValue.float 1)] = none :=
  ⟨rfl, by decide, rfl, rfl⟩

/-- Claim C3 (amended): two supplied tensors make evaluate fail when the
squeezed shape of the second does not broadcast into the batch slice fixed by
the first supplied entry; the failure is the RuntimeError of the slice
assignment, and broadcast-compatible differing shapes are accepted instead. -/
theorem c3_inconsistent_shapes (m : PyTorchModel) (hm : InputConforming m)
    (k1 k2 : String) (u v : Tensor) (h1 : k1 ∈ m.features) (h2 : k2 ∈ m.features)
    (hb : Tensor.broadcastsTo (v.squeeze).shape (u.squeeze).shape = false) :
    evaluate m [(k1, InputValue.tensor u), (k2, InputValue.tensor v)] = none := by
  have hf := hm.2.1
  have hk1 : k1 ∈ m.input_variables.map (fun x => x.name) := by
    rw [← hf]; exact h1
  have hk2 : k2 ∈ m.input_variables.map (fun x => x.name) := by
    rw [← hf]; exact h2
  rcases prepare_two_tensors m.input_variables k1 k2 u v hk1 hk2 with ⟨vars2, hpr⟩
  have harr : arrange_inputs m [(k1, u.squeeze), (k2, v.squeeze)] = none := by
    rcases indexOf?_mem h1 with ⟨i1, hio1, _, _⟩
    rcases indexOf?_mem h2 with ⟨i2, hio2, _, _⟩
    unfold arrange_inputs arrangeCore arrangeFold
    simp only [List.foldlM_cons, List.foldlM_nil, hio1, hio2, Option.bind_eq_bind,
      Option.some_bind]
    rcases hs1 : Tensor.setLastSlice (Tensor.tileDefaults m.default_values (u.squeeze).shape)
        i1 u.squeeze with _ | acc1
    · rfl
    · simp only [Option.some_bind]
      have hshape1 : acc1.shape = (u.squeeze).shape ++ [m.default_values.length] := by
        rw [setLastSlice_shape hs1]
        rfl
      have hs2 : Tensor.setLastSlice acc1 i2 (v.squeeze) = none := by
        unfold Tensor.setLastSlice
        rw [hshape1, List.getLast?_concat]
        simp only [List.dropLast_concat]
        rw [if_neg]
        intro hcon
        rw [hb] at hcon
        cases hcon.1
      rw [hs2]
      rfl
  exact evaluate_none_of_arrange_none m _ _ hpr harr

/-- Witness for c3_inconsistent_shapes: squeezed shapes of two and of three
entries on the conforming two-feature instance. -/
theorem c3_inconsistent_shapes_witness :
    evaluate exModel [("a", InputValue.tensor ⟨[2], [1, 2]⟩),
        ("b", InputValue.tensor ⟨[3], [7, 8, 9]⟩)] = none :=
  c3_inconsistent_shapes exModel ⟨rfl, rfl, by decide⟩ "a" "b"
    ⟨[2], [1, 2]⟩ ⟨[3], [7, 8, 9]⟩ (by decide) (by decide) (by decide)

/-- Counterexample to claim C3 as stated: the squeezed shapes differ, two by
three against three, yet evaluate succeeds, because a trailing shape
broadcasts across the batch slice; no InconsistentShape error is raised. -/
theorem c3_counterexample :
    (Tensor.mk [2, 3] [1, 2, 3, 4, 5, 6]).squeeze.shape
        ≠ (Tensor.mk [3] [7, 8, 9]).squeeze.shape ∧
    evaluate exModel [("a", InputValue.tensor ⟨[2, 3], [1, 2, 3, 4, 5, 6]⟩),
        ("b", InputValue.tensor ⟨[3], [7, 8, 9]⟩)]
      = some (EvalResult.tensors [("o1", ⟨[2, 3], [1, 2, 3, 4, 5, 6]⟩),
          ("o2", ⟨[2, 3], [7, 8, 9, 7, 8, 9]⟩)], exModel) :=
  ⟨by decide, rfl⟩

/-- Claim C5: the forward mappings of the input transformers are applied in
list order before the model call and the inverse mappings of the output
transformers are applied in list order to the raw model output: with chain
t1 then t2 the value t2(t1(x)) flows on, the model receives the left fold of
the forward mappings over the arranged tensor, and the disassembler receives
the left fold of the inverse mappings over the raw model output. -/
theorem c5_transform_order (m : PyTorchModel) (input : List (String × InputValue))
    (A : Tensor) (t1 t2 : Transformer) (ts : List Transformer) (x y : Tensor)
    (hA : arrangeStage m input = some A) :
    transform_inputs (t1 :: t2 :: ts) x = transform_inputs ts (t2.forward (t1.forward x)) ∧
    transform_outputs (t1 :: t2 :: ts) y
        = transform_outputs ts (t2.untransform (t1.untransform y)) ∧
    transform_inputs m.input_transformers A
        = m.input_transformers.foldl (fun w tr => tr.forward w) A ∧
    modelInput m input = some (transform_inputs m.input_transformers A) ∧
    disassemblerInput m input
        = some (m.output_transformers.foldl (fun w tr => tr.untransform w)
            (m.model (transform_inputs m.input_transformers A))) := by
  refine ⟨rfl, rfl, transform_inputs_foldl _ _, ?_, ?_⟩
  · unfold modelInput
    rw [hA]
    rfl
  · unfold disassemblerInput modelInput
    rw [hA]
    simp only [Option.map_some']
    rw [transform_outputs_foldl]

/-- Witness for c5_transform_order: a shift and a scale transformer on the
two-feature instance. -/
theorem c5_transform_order_witness :
    transform_inputs [exShift, exScale] ⟨[], [5]⟩
        = transform_inputs [] (exScale.forward (exShift.forward ⟨[], [5]⟩)) ∧
    transform_outputs [exShift, exScale] ⟨[], [5]⟩
        = transform_outputs [] (exScale.untransform (exShift.untransform ⟨[], [5]⟩)) ∧
    transform_inputs exModelTrans.input_transformers ⟨[2], [1, 20]⟩
        = exModelTrans.input_transformers.foldl (fun w tr => tr.forward w) ⟨[2], [1, 20]⟩ ∧
    modelInput exModelTrans [("a", InputValue.float 1)]
        = some (transform_inputs exModelTrans.input_transformers ⟨[2], [1, 20]⟩) ∧
    disassemblerInput exModelTrans [("a", InputValue.float 1)]
        = some (exModelTrans.output_transformers.foldl (fun w tr => tr.untransform w)
            (exModelTrans.model (transform_inputs exModelTrans.input_transformers
              ⟨[2], [1, 20]⟩))) :=
  c5_transform_order exModelTrans [("a", InputValue.float 1)] ⟨[2], [1, 20]⟩
    exShift exScale [] ⟨[], [5]⟩ ⟨[], [5]⟩ rfl

/-- Claim C7: with both transformer lists empty the transform stages are the
identity: the model receives exactly the arranged tensor, and the rendered
tensor-format results are exactly the disassembly of the raw model output. -/
theorem c7_empty_chain_identity (m : PyTorchModel) (input : List (String × InputValue))
    (h1 : m.input_transformers = []) (h2 : m.output_transformers = []) :
    modelInput m input = arrangeStage m input ∧
    (∀ A d st, arrangeStage m input = some A →
      evaluate m input = some (EvalResult.tensors d, st) →
      parse_outputs m.outputs (m.model A) = some d) := by
  constructor
  · unfold modelInput
    rw [h1]
    cases harr : arrangeStage m input with
    | none => rfl
    | some A => rfl
  · intro A d st hA hev
    rcases evaluate_some_inv m input _ _ hev with ⟨pr, A', pred, ro, hpr, hA', hp, hq, hr, _⟩
    have hstage : arrangeStage m input = some A' := by
      unfold arrangeStage
      rw [hpr]
      simpa using hA'
    have hAA : A' = A := Option.some.inj (hstage.symm.trans hA)
    rw [h1, h2] at hp
    simp only [transform_inputs, transform_outputs] at hp
    have hd : d = pred := prepare_outputs_tensors_result _ _ _ _ _ hq hr.symm
    rw [hAA] at hp
    rw [hd]
    exact hp

/-- Witness for c7_empty_chain_identity: the two-feature instance with empty
transformer lists, one feature supplied. -/
theorem c7_empty_chain_identity_witness :
    modelInput exModel [("a", InputValue.float 1)]
        = arrangeStage exModel [("a", InputValue.float 1)] ∧
    parse_outputs exModel.outputs (exModel.model ⟨[2], [1, 20]⟩)
        = some [("o1", ⟨[], [1]⟩), ("o2", ⟨[], [20]⟩)] := by
  have h := c7_empty_chain_identity exModel [("a", InputValue.float 1)] rfl rfl
  refine ⟨h.1, ?_⟩
  exact h.2 ⟨[2], [1, 20]⟩ [("o1", ⟨[], [1]⟩), ("o2", ⟨[], [20]⟩)]
    ({ exModel with
        input_variables := [⟨"a", 10, 1⟩, exInputB]
        output_variables := [{ exOut1 with value := VarValue.num 1 },
          { exOut2 with value := VarValue.num 20 }] }) rfl rfl

/-- Claim C6: for a raw-tensor input entry, after squeezing, a rank-0 result
updates the stored variable of that name to exactly that scalar, changing no
other field of it, while a rank of one or more leaves the stored variable
completely untouched by evaluate. -/
theorem c6_tensor_state (m : PyTorchModel) (input : List (String × InputValue))
    (r : EvalResult) (st : PyTorchModel) (name : String) (t : Tensor)
    (hnd : (input.map Prod.fst).Nodup) (hmem : (name, InputValue.tensor t) ∈ input)
    (hev : evaluate m input = some (r, st)) :
    (if (t.squeeze).dim = 0
      then findVar st.input_variables name
        = (findVar m.input_variables name).map (fun v => { v with value := (t.squeeze).item })
      else findVar st.input_variables name = findVar m.input_variables name) := by
  rcases evaluate_some_inv m input r st hev with ⟨pr, A, pred, ro, hpr, _, _, _, _, hst⟩
  have hst2 : st.input_variables = pr.2 := by
    rw [hst]
  have hmain := prepare_tensor_state input m.input_variables pr name t hnd hmem hpr
  by_cases h0 : (t.squeeze).dim = 0
  · rw [if_pos h0] at hmain ⊢
    rw [hst2]
    exact hmain
  · rw [if_neg h0] at hmain ⊢
    rw [hst2]
    exact hmain

/-- Witness for c6_tensor_state: a batched rank-1 tensor for feature a leaves
its variable untouched while a tensor squeezing to rank 0 for feature b
updates its value to 42. -/
theorem c6_tensor_state_witness :
    (if ((Tensor.mk [3] [1, 2, 3]).squeeze).dim = 0
      then findVar ({ exModel with
          input_variables := [exInputA, ⟨"b", 20, 42⟩] }).input_variables "a"
        = (findVar exModel.input_variables "a").map
            (fun v => { v with value := ((Tensor.mk [3] [1, 2, 3]).squeeze).item })
      else findVar ({ exModel with
          input_variables := [exInputA, ⟨"b", 20, 42⟩] }).input_variables "a"
        = findVar exModel.input_variables "a") ∧
    (if ((Tensor.mk [1, 1] [42]).squeeze).dim = 0
      then findVar ({ exModel with
          input_variables := [exInputA, ⟨"b", 20, 42⟩] }).input_variables "b"
        = (findVar exModel.input_variables "b").map
            (fun v => { v with value := ((Tensor.mk [1, 1] [42]).squeeze).item })
      else findVar ({ exModel with
          input_variables := [exInputA, ⟨"b", 20, 42⟩] }).input_variables "b"
        = findVar exModel.input_variables "b") :=
  ⟨c6_tensor_state exModel
      [("a", InputValue.tensor ⟨[3], [1, 2, 3]⟩), ("b", InputValue.tensor ⟨[1, 1], [42]⟩)]
      (EvalResult.tensors [("o1", ⟨[3], [1, 2, 3]⟩), ("o2", ⟨[3], [42, 42, 42]⟩)])
      ({ exModel with input_variables := [exInputA, ⟨"b", 20, 42⟩] })
      "a" ⟨[3], [1, 2, 3]⟩ (by decide) (by decide) rfl,
   c6_tensor_state exModel
      [("a", InputValue.tensor ⟨[3], [1, 2, 3]⟩), ("b", InputValue.tensor ⟨[1, 1], [42]⟩)]
      (EvalResult.tensors [("o1", ⟨[3], [1, 2, 3]⟩), ("o2", ⟨[3], [42, 42, 42]⟩)])
      ({ exModel with input_variables := [exInputA, ⟨"b", 20, 42⟩] })
      "b" ⟨[1, 1], [42]⟩ (by decide) (by decide) rfl⟩

/-- Claim C4: evaluating the same input once with tensor output format and
once with raw output format gives results related by raw[name] equal to
tensor[name].item() for every scalar-typed output whose disassembled value is
rank 0: the raw rendering stores exactly the item of the corresponding
disassembled tensor. -/
theorem c4_format_round_trip (m : PyTorchModel) (input : List (String × InputValue))
    (hnd : (m.output_variables.map (fun v => v.name)).Nodup)
    (d : List (String × Tensor)) (r : List (String × VarValue)) (stT stR : PyTorchModel)
    (hT : evaluate { m with output_format := "tensor" } input
        = some (EvalResult.tensors d, stT))
    (hR : evaluate { m with output_format := "raw" } input
        = some (EvalResult.raw r, stR))
    (v : OutputVariable) (hv : v ∈ m.output_variables) (hsc : v.variable_type = "scalar")
    (t : Tensor) (hlp : lookupPred d v.name = some t) (h0 : t.dim = 0) :
    (r.find? (fun p => p.1 = v.name)).map (fun p => p.2) = some (VarValue.num t.item) := by
  rcases evaluate_some_inv { m with output_format := "tensor" } input _ _ hT with
    ⟨prT, AT, predT, roT, hprT, hAT, hpT, hqT, hrT, _⟩
  rcases evaluate_some_inv { m with output_format := "raw" } input _ _ hR with
    ⟨prR, AR, predR, roR, hprR, hAR, hpR, hqR, hrR, _⟩
  have hprT' : prepare_inputs m.input_variables input = some prT := hprT
  have hprR' : prepare_inputs m.input_variables input = some prR := hprR
  have hprEq : prT = prR := Option.some.inj (hprT'.symm.trans hprR')
  have hAT' : arrange_inputs m prT.1 = some AT := hAT
  have hAR' : arrange_inputs m prT.1 = some AR := by
    rw [hprEq]
    exact hAR
  have hAEq : AT = AR := Option.some.inj (hAT'.symm.trans hAR')
  have hpT' : parse_outputs m.outputs (transform_outputs m.output_transformers
      (m.model (transform_inputs m.input_transformers AT))) = some predT := hpT
  have hpR' : parse_outputs m.outputs (transform_outputs m.output_transformers
      (m.model (transform_inputs m.input_transformers AT))) = some predR := by
    rw [hAEq]
    exact hpR
  have hpredEq : predT = predR := Option.some.inj (hpT'.symm.trans hpR')
  have hqT' : prepare_outputs m.output_variables "tensor" predT = some roT := hqT
  have hqR' : prepare_outputs m.output_variables "raw" predR = some roR := hqR
  have hdT : d = predT := by
    have := prepare_outputs_tensor_fmt m.output_variables predT roT hqT'
    rw [← hrT] at this
    exact (EvalResult.tensors.injEq _ _).mp this
  have hrR2 : r = roR.2.map (fun w => (w.name, w.value)) := by
    have := prepare_outputs_raw_fmt m.output_variables predR roR hqR'
    rw [← hrR] at this
    exact (EvalResult.raw.injEq _ _).mp this
  have hfold : m.output_variables.foldlM
      (fun acc u => prepare_outputs_step predR acc u) m.output_variables = some roR.2 :=
    prepare_outputs_fold m.output_variables "raw" predR roR hqR'
  have hlp' : lookupPred predR v.name = some t := by
    rw [← hpredEq, ← hdT]
    exact hlp
  have hfv := fold_value predR m.output_variables hnd v hv hsc t hlp' h0 roR.2 hfold
  rw [hrR2, List.find?_map]
  have hcomp : roR.2.find? ((fun p : String × VarValue => p.1 = v.name)
      ∘ (fun w : OutputVariable => (w.name, w.value)))
      = some { v with value := VarValue.num t.item } := hfv
  rw [hcomp]
  rfl

/-- Witness for c4_format_round_trip: the two-feature instance evaluated with
both features supplied as scalars, in tensor and in raw format. -/
theorem c4_format_round_trip_witness :
    (([("o1", VarValue.num 1), ("o2", VarValue.num 2)] : List (String × VarValue)).find?
        (fun p => p.1 = "o1")).map (fun p => p.2)
      = some (VarValue.num (Tensor.item ⟨[], [1]⟩)) :=
  c4_format_round_trip exModel [("a", InputValue.float 1), ("b", InputValue.float 2)]
    (by decide)
    [("o1", ⟨[], [1]⟩), ("o2", ⟨[], [2]⟩)]
    [("o1", VarValue.num 1), ("o2", VarValue.num 2)]
    ({ exModel with
        output_format := "tensor"
        input_variables := [⟨"a", 10, 1⟩, ⟨"b", 20, 2⟩]
        output_variables := [{ exOut1 with value := VarValue.num 1 },
          { exOut2 with value := VarValue.num 2 }] })
    ({ exModel with
        output_format := "raw"
        input_variables := [⟨"a", 10, 1⟩, ⟨"b", 20, 2⟩]
        output_variables := [{ exOut1 with value := VarValue.num 1 },
          { exOut2 with value := VarValue.num 2 }] })
    rfl rfl exOut1 (by decide) rfl ⟨[], [1]⟩ rfl rfl

/-- Claim C8 (amended): every NON-EMPTY input mapping whose keys form a
subset of the feature order, supplied as scalars, evaluates without error on
a conforming instance with scalar-typed outputs and a model whose pipeline
yields one value per output; every absent feature is filled from its stored
default by the arranger.  The empty mapping instead raises an IndexError. -/
theorem c8_nonempty_subset_ok (m : PyTorchModel) (hmi : InputConforming m)
    (hmo : OutputConforming m)
    (hscal : ∀ v ∈ m.output_variables, v.variable_type = "scalar")
    (hmodel : ∀ x : Tensor, x.shape = [m.features.length] →
      (transform_outputs m.output_transformers
        (m.model (transform_inputs m.input_transformers x))).shape = [m.outputs.length])
    (l : List (String × Rat)) (hne : l ≠ []) (hnds : (l.map Prod.fst).Nodup)
    (hsub : ∀ p ∈ l, p.1 ∈ m.features) :
    (evaluate m (l.map (fun p => (p.1, InputValue.float p.2)))).isSome := by
  have hf := hmi.2.1
  have hsub' : ∀ p ∈ l, p.1 ∈ m.input_variables.map (fun v => v.name) := by
    intro p hp
    rw [← hf]
    exact hsub p hp
  rcases prepare_floats l m.input_variables hsub' with ⟨vars2, hpr, _⟩
  have harr := arrange_floats m hmi l hne hsub hnds
  have hL : m.default_values.length = m.features.length := by
    rw [hmi.1, hf]
    simp
  have hAshape : (Tensor.mk [m.default_values.length]
      (fillData m.features m.default_values l)).shape = [m.features.length] := by
    show [m.default_values.length] = [m.features.length]
    rw [hL]
  have hy := hmodel _ hAshape
  rcases parse_outputs_vec m.outputs _ m.outputs.length hy rfl with ⟨pred, hp, hkeys, hdims⟩
  have hstep : ∀ v ∈ m.output_variables, v.variable_type = "scalar" ∧
      ∃ t, lookupPred pred v.name = some t ∧ t.dim = 0 := by
    intro v hv
    refine ⟨hscal v hv, ?_⟩
    have hmem : v.name ∈ pred.map Prod.fst := by
      rw [hkeys, hmo.1]
      exact List.mem_map.mpr ⟨v, hv, rfl⟩
    rcases lookupPred_of_mem pred v.name hmem with ⟨t, hlp⟩
    exact ⟨t, hlp, lookupPred_dim0 pred v.name t hdims hlp⟩
  have hps := prepare_outputs_isSome m.output_variables m.output_format pred hstep
  rw [evaluate_eq_pipeline m _ _ _ hpr harr, hp]
  simp only [Option.some_bind]
  rcases ho : prepare_outputs m.output_variables m.output_format pred with _ | ro
  · rw [ho] at hps
    cases hps
  · rfl

/-- Witness for c8_nonempty_subset_ok: the constant-output instance with only
feature a supplied. -/
theorem c8_nonempty_subset_ok_witness :
    (evaluate exModelConst ([(("a" : String), (1 : Rat))].map
        (fun p => (p.1, InputValue.float p.2)))).isSome :=
  c8_nonempty_subset_ok exModelConst ⟨rfl, rfl, by decide⟩ ⟨rfl, by decide⟩
    (by decide) (fun x hx => rfl) [("a", 1)] (by decide) (by decide) (by decide)

/-- Counterexample to claim C8 as stated: the empty input mapping does not
succeed; evaluate raises the IndexError of list(input_variables.items())[0]
in the arranger. -/
theorem c8_counterexample :
    evaluate exModelConst [] = none := by
  rfl

end Claims

end LumeModel
